import Mathlib

/-!
Verification development for the order-management core
(`src/domain/models.py`, `src/domain/order_book.py`,
`src/services/price_calculator.py`, `src/services/trade_executor.py`,
`src/services/order_manager.py`).

Modelling conventions:
* Python `int` is `Int`; strings are `String`.
* Python dicts (`_order_index`, `_orders`, `_order_books`) are association
  lists with the dict operations `dlookup` / `dset` / `derase`; a dict
  assignment overwrites in place, `pop`/`del` drops the entry.
* A Python `Order` is one shared mutable object referenced at once by a
  book's side collection, the book's `_order_index` and the facade's
  `_orders`.  Within a well-formed book every `order_id` denotes a single
  object, so the in-place mutation `order.amount = new_amount` of
  `OrderBook.update_order_amount` is rendered as an update of every entry
  carrying that id, and the executor's loop threads the facade's `_orders`
  dict through the trade so that the same in-place update is visible there
  (exactly as object aliasing makes it visible in the source).
* `sortedcontainers.SortedList(key=...)` inserts with `bisect_right`: a new
  element goes after every element whose key is less than or equal to its
  own key.  On the (always key-sorted) lists of a book this is
  `insertSorted` below.  `SortedList.discard(order)` removes the unique
  element equal to the index's object, i.e. the element with that id.
* `Trade.trade_id` (a fresh UUID) and `executed_at` (wall-clock time) are
  environment-supplied values no claim depends on; they are omitted from
  the `Trade` record.
-/

namespace OMS

/-- `Side` enum of `models.py`. -/
inductive Side
  | BUY
  | SELL
deriving DecidableEq, Repr

/-- `Order` dataclass of `models.py`. -/
structure Order where
  order_id : Int
  symbol : String
  side : Side
  amount : Int
  price : Int
deriving DecidableEq, Repr

/-- `OrderFill` dataclass of `models.py`. -/
structure OrderFill where
  order_id : Int
  filled_amount : Int
  fill_price : Int
deriving DecidableEq, Repr

/-- `Trade` dataclass of `models.py` (`trade_id`/`executed_at` omitted, see header). -/
structure Trade where
  symbol : String
  side : Side
  amount : Int
  total_price : Int
  order_fills : List OrderFill
deriving DecidableEq, Repr

/-- `Side.value` (the `.value` of the Python enum member). -/
def Side.value : Side → String
  | .BUY => "BUY"
  | .SELL => "SELL"

/-- `Side(str)` enum construction: succeeds exactly on the two literals. -/
def Side.ofString (s : String) : Option Side :=
  if s = "BUY" then some Side.BUY
  else if s = "SELL" then some Side.SELL
  else none

/-- The dictionary produced by `Order.to_dict` (`side` serialized as a string). -/
structure OrderDict where
  order_id : Int
  symbol : String
  side : String
  amount : Int
  price : Int
deriving DecidableEq, Repr

/-- `Order.to_dict` of `models.py`. -/
def Order.to_dict (o : Order) : OrderDict :=
  ⟨o.order_id, o.symbol, o.side.value, o.amount, o.price⟩

/-- `Order.from_dict` of `models.py`; `Side(data["side"])` raises on a bad
string, modelled by `Option`. -/
def Order.from_dict (d : OrderDict) : Option Order :=
  (Side.ofString d.side).map (fun sd => ⟨d.order_id, d.symbol, sd, d.amount, d.price⟩)

/-- Python dict lookup `d.get(k)`. -/
def dlookup {κ α : Type} [DecidableEq κ] : List (κ × α) → κ → Option α
  | [], _ => none
  | p :: rest, k => if p.1 = k then some p.2 else dlookup rest k

/-- Python dict assignment `d[k] = v` (overwrite in place, else append). -/
def dset {κ α : Type} [DecidableEq κ] : List (κ × α) → κ → α → List (κ × α)
  | [], k, v => [(k, v)]
  | p :: rest, k, v => if p.1 = k then (k, v) :: rest else p :: dset rest k v

/-- Python dict deletion `d.pop(k, None)` / `del d[k]` (drop the entry). -/
def derase {κ α : Type} [DecidableEq κ] : List (κ × α) → κ → List (κ × α)
  | [], _ => []
  | p :: rest, k => if p.1 = k then rest else p :: derase rest k

/-- The sort key of `_buy_orders`: `lambda o: o.price`. -/
def buyKey (o : Order) : Int := o.price

/-- The sort key of `_sell_orders`: `lambda o: -o.price`. -/
def sellKey (o : Order) : Int := -o.price

/-- `SortedList.add` (bisect_right): insert after every element whose key is
`≤` the new element's key. -/
def insertSorted (key : Order → Int) (o : Order) : List Order → List Order
  | [] => [o]
  | x :: xs => if key x ≤ key o then x :: insertSorted key o xs else o :: x :: xs

/-- Erase the (unique, in a well-formed book) element with the given id:
`SortedList.discard(order)` where `order` is the index's object for the id. -/
def eraseById (id : Int) : List Order → List Order
  | [] => []
  | x :: xs => if x.order_id = id then xs else x :: eraseById id xs

/-- In-place mutation `order.amount = a` of the shared object with the given
id, rendered on a collection referencing it. -/
def setAmountById (id : Int) (a : Int) (l : List Order) : List Order :=
  l.map (fun o => if o.order_id = id then { o with amount := a } else o)

/-- `OrderBook` of `order_book.py`. -/
structure OrderBook where
  symbol : String
  buyOrders : List Order
  sellOrders : List Order
  orderIndex : List (Int × Order)
deriving DecidableEq, Repr

/-- `OrderBook.__init__`. -/
def OrderBook.empty (symbol : String) : OrderBook := ⟨symbol, [], [], []⟩

/-- `OrderBook.add_order`. -/
def OrderBook.add_order (b : OrderBook) (o : Order) : OrderBook :=
  if o.side = Side.BUY then
    { b with buyOrders := insertSorted buyKey o b.buyOrders,
             orderIndex := dset b.orderIndex o.order_id o }
  else
    { b with sellOrders := insertSorted sellKey o b.sellOrders,
             orderIndex := dset b.orderIndex o.order_id o }

/-- `OrderBook.remove_order`. -/
def OrderBook.remove_order (b : OrderBook) (id : Int) : Option Order × OrderBook :=
  match dlookup b.orderIndex id with
  | none => (none, b)
  | some o =>
    if o.side = Side.BUY then
      (some o, { b with buyOrders := eraseById id b.buyOrders,
                        orderIndex := derase b.orderIndex id })
    else
      (some o, { b with sellOrders := eraseById id b.sellOrders,
                        orderIndex := derase b.orderIndex id })

/-- `OrderBook.get_order`. -/
def OrderBook.get_order (b : OrderBook) (id : Int) : Option Order :=
  dlookup b.orderIndex id

/-- `OrderBook.get_orders` (fresh snapshot of the side's sorted list). -/
def OrderBook.get_orders (b : OrderBook) (side : Side) : List Order :=
  if side = Side.BUY then b.buyOrders else b.sellOrders

/-- `OrderBook.update_order_amount`: mutates the shared object in place. -/
def OrderBook.update_order_amount (b : OrderBook) (id : Int) (a : Int) :
    Bool × OrderBook :=
  match dlookup b.orderIndex id with
  | none => (false, b)
  | some _ =>
    (true,
      { b with
          buyOrders := setAmountById id a b.buyOrders,
          sellOrders := setAmountById id a b.sellOrders,
          orderIndex :=
            b.orderIndex.map
              (fun p => if p.1 = id then (p.1, { p.2 with amount := a }) else p) })

/-- `PriceCalculator.calculate` of `price_calculator.py`: walk the sequence,
consume `min(order.amount, remaining)` per order, accumulate
`price * consumed`, stop once `remaining <= 0`. -/
def PriceCalculator.calculate : List Order → Int → Int
  | [], _ => 0
  | o :: rest, remaining =>
    if remaining ≤ 0 then 0
    else
      o.price * min o.amount remaining +
        PriceCalculator.calculate rest (remaining - min o.amount remaining)

/-- Result of the executor's consumption loop: the mutated book, the facade's
`_orders` dict (threaded because its entries alias the book's objects), the
fills, `actual_filled` and `actual_price`. -/
structure ExecResult where
  book : OrderBook
  fac : List (Int × Order)
  fills : List OrderFill
  filled : Int
  price : Int

/-- The `for order in orders` loop of `TradeExecutor.execute`: per touched
order record an `OrderFill`, then remove the order (amount exhausted) or
update its amount in place — the in-place update also reaches the facade's
`_orders` entry for that id, since it is the same object. -/
def executeLoop : OrderBook → List (Int × Order) → List Order → Int → ExecResult
  | b, fac, [], _ => ⟨b, fac, [], 0, 0⟩
  | b, fac, o :: rest, remaining =>
    if remaining ≤ 0 then ⟨b, fac, [], 0, 0⟩
    else
      let consumed := min o.amount remaining
      let new_amount := o.amount - consumed
      let b' := if new_amount = 0 then (b.remove_order o.order_id).2
                else (b.update_order_amount o.order_id new_amount).2
      let fac' := if new_amount = 0 then fac
                  else fac.map (fun p =>
                    if p.1 = o.order_id then (p.1, { p.2 with amount := new_amount }) else p)
      let r := executeLoop b' fac' rest (remaining - consumed)
      ⟨r.book, r.fac, ⟨o.order_id, consumed, o.price⟩ :: r.fills,
        consumed + r.filled, o.price * consumed + r.price⟩

/-- `TradeExecutor.execute` run against a book alone (no facade dict watching
the objects): snapshot the side, run the loop, build the `Trade` from
`actual_filled` / `actual_price` / the fills. -/
def TradeExecutor.execute (b : OrderBook) (side : Side) (amount : Int) :
    Trade × OrderBook :=
  let orders := b.get_orders side
  let r := executeLoop b [] orders amount
  (⟨b.symbol, side, r.filled, r.price, r.fills⟩, r.book)

/-- `OrderManagement` state: `_order_books` and the facade's `_orders`. -/
structure OMState where
  order_books : List (String × OrderBook)
  orders : List (Int × Order)
deriving DecidableEq, Repr

/-- `OrderManagement.__init__`. -/
def OMState.empty : OMState := ⟨[], []⟩

/-- `OrderManagement._get_or_create_order_book`: returns the book and the
(possibly extended) `_order_books` dict. -/
def getOrCreateOrderBook (s : OMState) (symbol : String) :
    OrderBook × List (String × OrderBook) :=
  match dlookup s.order_books symbol with
  | some b => (b, s.order_books)
  | none => (OrderBook.empty symbol, dset s.order_books symbol (OrderBook.empty symbol))

/-- Outcome of `OrderManagement.add_order`: `duplicateOrder` is the raised
`ValueError` for an id already tracked. -/
inductive AddResult
  | ok
  | duplicateOrder
deriving DecidableEq, Repr

/-- `OrderManagement.add_order`: duplicate check against `_orders` first
(raising leaves the state untouched), then create the order, get/create the
book, insert, and track the order. -/
def OMState.add_order (s : OMState) (id : Int) (symbol : String) (side : Side)
    (amount price : Int) : AddResult × OMState :=
  if (dlookup s.orders id).isSome then (AddResult.duplicateOrder, s)
  else
    let o : Order := ⟨id, symbol, side, amount, price⟩
    let bb := getOrCreateOrderBook s symbol
    let book' := bb.1.add_order o
    (AddResult.ok, ⟨dset bb.2 symbol book', dset s.orders id o⟩)

/-- `OrderManagement.remove_order`: look up by id (absent id is a no-op),
remove from the owning book, then delete from `_orders`. -/
def OMState.remove_order (s : OMState) (id : Int) : OMState :=
  match dlookup s.orders id with
  | none => s
  | some o =>
    let books' :=
      match dlookup s.order_books o.symbol with
      | none => s.order_books
      | some b => dset s.order_books o.symbol (b.remove_order id).2
    ⟨books', derase s.orders id⟩

/-- `OrderManagement.calculate_price`: get/create the book (create-on-read),
snapshot the side, delegate to `PriceCalculator`. -/
def OMState.calculate_price (s : OMState) (symbol : String) (side : Side)
    (amount : Int) : Int × OMState :=
  let bb := getOrCreateOrderBook s symbol
  (PriceCalculator.calculate (bb.1.get_orders side) amount, ⟨bb.2, s.orders⟩)

/-- `OrderManagement._update_local_order_tracking`: for each fill, re-read the
tracked object's (already mutated) amount, subtract the filled amount again,
and delete the entry when that reaches zero. -/
def updateLocalOrderTracking (fac : List (Int × Order)) :
    List OrderFill → List (Int × Order)
  | [] => fac
  | f :: rest =>
    let fac' :=
      match dlookup fac f.order_id with
      | none => fac
      | some o =>
        if o.amount - f.filled_amount = 0 then derase fac f.order_id else fac
    updateLocalOrderTracking fac' rest

/-- `OrderManagement.place_trade`: get/create the book, run the executor
(whose in-place amount updates also reach the aliased `_orders` entries),
then reconcile `_orders` with `_update_local_order_tracking`. -/
def OMState.place_trade (s : OMState) (symbol : String) (side : Side)
    (amount : Int) : Trade × OMState :=
  let bb := getOrCreateOrderBook s symbol
  let r := executeLoop bb.1 s.orders (bb.1.get_orders side) amount
  let trade : Trade := ⟨bb.1.symbol, side, r.filled, r.price, r.fills⟩
  (trade, ⟨dset bb.2 symbol r.book, updateLocalOrderTracking r.fac r.fills⟩)

/-- Observation helper: the order stored for an id in a symbol's book. -/
def OMState.sysGetOrder (s : OMState) (symbol : String) (id : Int) : Option Order :=
  (dlookup s.order_books symbol).bind (fun b => b.get_order id)

/-- Sum of `filled_amount` over a fill list. -/
def sumFilled : List OrderFill → Int
  | [] => 0
  | f :: rest => f.filled_amount + sumFilled rest

/-- Sum of `fill_price * filled_amount` over a fill list. -/
def sumFillPrice : List OrderFill → Int
  | [] => 0
  | f :: rest => f.fill_price * f.filled_amount + sumFillPrice rest

/-- Proof helper: the total quantity the loop consumes, as a pure function of
the snapshot and the request (the loop's consumption depends only on these). -/
def consumedTotal : List Order → Int → Int
  | [], _ => 0
  | o :: rest, r =>
    if r ≤ 0 then 0 else min o.amount r + consumedTotal rest (r - min o.amount r)

/-- Proof helper: the fill list the loop records, as a pure function of the
snapshot and the request. -/
def fillsSpec : List Order → Int → List OrderFill
  | [], _ => []
  | o :: rest, r =>
    if r ≤ 0 then []
    else ⟨o.order_id, min o.amount r, o.price⟩ :: fillsSpec rest (r - min o.amount r)

/-- Well-formed book (the §3 invariants of the spec): ids unique across the
two side collections, index keys unique, every resting order indexed under
its id on its own side, every index entry resting on its side. -/
def WFBook (b : OrderBook) : Prop :=
  ((b.buyOrders ++ b.sellOrders).map Order.order_id).Nodup ∧
  (b.orderIndex.map Prod.fst).Nodup ∧
  (∀ o ∈ b.buyOrders, o.side = Side.BUY ∧ dlookup b.orderIndex o.order_id = some o) ∧
  (∀ o ∈ b.sellOrders, o.side = Side.SELL ∧ dlookup b.orderIndex o.order_id = some o) ∧
  (∀ p ∈ b.orderIndex, p.2.order_id = p.1 ∧ (p.2 ∈ b.buyOrders ∨ p.2 ∈ b.sellOrders))

/-- All resting orders of a book have positive amount. -/
def BookPos (b : OrderBook) : Prop :=
  (∀ o ∈ b.buyOrders, 0 < o.amount) ∧
  (∀ o ∈ b.sellOrders, 0 < o.amount) ∧
  (∀ p ∈ b.orderIndex, 0 < p.2.amount)

/-- All books of a system state have only positive resting amounts. -/
def RestingPos (s : OMState) : Prop :=
  ∀ p ∈ s.order_books, BookPos p.2

/-- An id is nowhere in a book: not indexed and resting on neither side. -/
def NotInBook (b : OrderBook) (id : Int) : Prop :=
  b.get_order id = none ∧
  (∀ o ∈ b.buyOrders, o.order_id ≠ id) ∧
  (∀ o ∈ b.sellOrders, o.order_id ≠ id)

/-- Stable price sort (insert each element after its equals, left to right):
the specification "price priority with FIFO among equal prices" against
which the book's side lists are compared. -/
def ssort (key : Order → Int) (l : List Order) : List Order :=
  l.foldl (fun acc o => insertSorted key o acc) []

/-- The three mutating `OrderBook` operations of `order_book.py`. -/
inductive BookOp
  | add (o : Order)
  | remove (id : Int)
  | setAmount (id : Int) (a : Int)
deriving DecidableEq, Repr

/-- Apply one `OrderBook` operation. -/
def applyOp (b : OrderBook) : BookOp → OrderBook
  | .add o => b.add_order o
  | .remove id => (b.remove_order id).2
  | .setAmount id a => (b.update_order_amount id a).2

/-- Run a sequence of operations on a fresh book. -/
def runOps (symbol : String) (ops : List BookOp) : OrderBook :=
  ops.foldl applyOp (OrderBook.empty symbol)

/-- The caller contract of `OrderBook.add_order` (§4.1 of the spec): the id
of an added order does not already exist in this book. -/
def opValid (b : OrderBook) : BookOp → Bool
  | .add o => (b.get_order o.order_id).isNone
  | .remove _ => true
  | .setAmount _ _ => true

/-- A sequence of operations each of which respects the caller contract in
the state it runs in. -/
def validOpsFrom (b : OrderBook) : List BookOp → Bool
  | [] => true
  | op :: rest => opValid b op && validOpsFrom (applyOp b op) rest

/-- Ghost history: the orders of one side surviving an operation, kept in
insertion order (adds append; removal erases; amount update rewrites). -/
def survStep (side : Side) (h : List Order) : BookOp → List Order
  | .add o => if o.side = side then h ++ [o] else h
  | .remove id => eraseById id h
  | .setAmount id a => setAmountById id a h

/-- Ghost history of one side after a whole operation sequence: the resting
orders of that side in the relative order in which they were added. -/
def survivors (side : Side) (ops : List BookOp) : List Order :=
  ops.foldl (survStep side) []

/-- Invariant tying a book to the ghost insertion-ordered histories of its
two sides: each side list is the stable price sort of its history, history
sides are correct, ids are unique, and the index agrees with the
histories. -/
def C5Inv (b : OrderBook) (hb hs : List Order) : Prop :=
  b.buyOrders = ssort buyKey hb ∧
  b.sellOrders = ssort sellKey hs ∧
  (∀ o ∈ hb, o.side = Side.BUY) ∧
  (∀ o ∈ hs, o.side = Side.SELL) ∧
  ((hb ++ hs).map Order.order_id).Nodup ∧
  (b.orderIndex.map Prod.fst).Nodup ∧
  (∀ id : Int, dlookup b.orderIndex id = none → ∀ o ∈ hb ++ hs, o.order_id ≠ id) ∧
  (∀ (id : Int) (o : Order), dlookup b.orderIndex id = some o →
    o.order_id = id ∧ (o ∈ hb ∨ o ∈ hs))

instance (b : OrderBook) : Decidable (WFBook b) := by
  unfold WFBook; infer_instance

instance (b : OrderBook) : Decidable (BookPos b) := by
  unfold BookPos; infer_instance

instance (s : OMState) : Decidable (RestingPos s) := by
  unfold RestingPos; infer_instance

instance (b : OrderBook) (id : Int) : Decidable (NotInBook b id) := by
  unfold NotInBook; infer_instance

/-- States reachable by the public facade operations, with the input domains
of §6 of the spec (adds carry `amount ≥ 1`, `price ≥ 1`; trade and price
queries carry `amount ≥ 0`; the transport layer guarantees these bounds). -/
inductive SysReach : OMState → Prop
  | init : SysReach OMState.empty
  | add (s : OMState) (id : Int) (symbol : String) (side : Side) (amount price : Int) :
      SysReach s → 1 ≤ amount → 1 ≤ price →
      SysReach (s.add_order id symbol side amount price).2
  | remove (s : OMState) (id : Int) : SysReach s → SysReach (s.remove_order id)
  | calcPrice (s : OMState) (symbol : String) (side : Side) (amount : Int) :
      SysReach s → 0 ≤ amount → SysReach (s.calculate_price symbol side amount).2
  | trade (s : OMState) (symbol : String) (side : Side) (amount : Int) :
      SysReach s → 0 ≤ amount → SysReach (s.place_trade symbol side amount).2

end OMS

namespace OMS

/-- The executor loop's accumulated `actual_price` is exactly what
`PriceCalculator.calculate` computes on the same (pre-mutation) snapshot:
both walk the list consuming `min(order.amount, remaining)` per order. -/
theorem executeLoop_price (orders : List Order) :
    ∀ (b : OrderBook) (fac : List (Int × Order)) (remaining : Int),
      (executeLoop b fac orders remaining).price =
        PriceCalculator.calculate orders remaining := by
  induction orders with
  | nil => intro b fac remaining; rfl
  | cons o rest ih =>
    intro b fac remaining
    by_cases h : remaining ≤ 0
    · simp [executeLoop, PriceCalculator.calculate, h]
    · simp [executeLoop, PriceCalculator.calculate, h, ih]

/-- The loop's `actual_filled` equals the sum of the recorded fill amounts. -/
theorem executeLoop_filled (orders : List Order) :
    ∀ (b : OrderBook) (fac : List (Int × Order)) (remaining : Int),
      (executeLoop b fac orders remaining).filled =
        sumFilled (executeLoop b fac orders remaining).fills := by
  induction orders with
  | nil => intro b fac remaining; rfl
  | cons o rest ih =>
    intro b fac remaining
    by_cases h : remaining ≤ 0
    · simp [executeLoop, h, sumFilled]
    · simp [executeLoop, h, sumFilled, ih]

/-- The loop's `actual_price` equals the sum of `fill_price * filled_amount`. -/
theorem executeLoop_price_fills (orders : List Order) :
    ∀ (b : OrderBook) (fac : List (Int × Order)) (remaining : Int),
      (executeLoop b fac orders remaining).price =
        sumFillPrice (executeLoop b fac orders remaining).fills := by
  induction orders with
  | nil => intro b fac remaining; rfl
  | cons o rest ih =>
    intro b fac remaining
    by_cases h : remaining ≤ 0
    · simp [executeLoop, h, sumFillPrice]
    · simp [executeLoop, h, sumFillPrice, ih]

/-- The loop's fill list depends only on the snapshot and the request. -/
theorem executeLoop_fills (orders : List Order) :
    ∀ (b : OrderBook) (fac : List (Int × Order)) (remaining : Int),
      (executeLoop b fac orders remaining).fills = fillsSpec orders remaining := by
  induction orders with
  | nil => intro b fac remaining; rfl
  | cons o rest ih =>
    intro b fac remaining
    by_cases h : remaining ≤ 0
    · simp [executeLoop, fillsSpec, h]
    · simp [executeLoop, fillsSpec, h, ih]

/-- The loop's `actual_filled` depends only on the snapshot and the request. -/
theorem executeLoop_filled_pure (orders : List Order) :
    ∀ (b : OrderBook) (fac : List (Int × Order)) (remaining : Int),
      (executeLoop b fac orders remaining).filled = consumedTotal orders remaining := by
  induction orders with
  | nil => intro b fac remaining; rfl
  | cons o rest ih =>
    intro b fac remaining
    by_cases h : remaining ≤ 0
    · simp [executeLoop, consumedTotal, h]
    · simp [executeLoop, consumedTotal, h, ih]

/-- The consumed total never exceeds a non-negative request. -/
theorem consumedTotal_le (orders : List Order) :
    ∀ remaining : Int, 0 ≤ remaining → consumedTotal orders remaining ≤ remaining := by
  induction orders with
  | nil => intro r h; simpa [consumedTotal] using h
  | cons o rest ih =>
    intro r h
    by_cases hr : r ≤ 0
    · simpa [consumedTotal, hr] using h
    · have h0 : 0 ≤ r - min o.amount r := by omega
      have hrec := ih (r - min o.amount r) h0
      simp only [consumedTotal, if_neg hr]
      omega

/-- The loop never fills more than requested (for a non-negative request). -/
theorem executeLoop_filled_le (orders : List Order) (b : OrderBook)
    (fac : List (Int × Order)) (remaining : Int) (h : 0 ≤ remaining) :
    (executeLoop b fac orders remaining).filled ≤ remaining := by
  rw [executeLoop_filled_pure]
  exact consumedTotal_le orders remaining h

/-- `PriceCalculator.calculate` returns 0 for a non-positive request. -/
theorem calculate_nonpos (orders : List Order) (a : Int) (h : a ≤ 0) :
    PriceCalculator.calculate orders a = 0 := by
  cases orders with
  | nil => rfl
  | cons o rest => simp [PriceCalculator.calculate, h]

/-- `PriceCalculator.calculate` is non-negative over non-negative liquidity. -/
theorem calculate_nonneg (orders : List Order)
    (hA : ∀ o ∈ orders, 0 ≤ o.amount) (hP : ∀ o ∈ orders, 0 ≤ o.price) :
    ∀ a, 0 ≤ PriceCalculator.calculate orders a := by
  induction orders with
  | nil => intro a; simp [PriceCalculator.calculate]
  | cons o rest ih =>
    intro a
    by_cases h : a ≤ 0
    · simp [PriceCalculator.calculate, h]
    · have h1 : 0 ≤ o.amount := hA o (by simp)
      have h2 : 0 ≤ o.price := hP o (by simp)
      have h3 : 0 ≤ min o.amount a := le_min h1 (by omega)
      have h4 := ih (fun x hx => hA x (by simp [hx])) (fun x hx => hP x (by simp [hx]))
        (a - min o.amount a)
      have h5 : 0 ≤ o.price * min o.amount a := mul_nonneg h2 h3
      simp only [PriceCalculator.calculate, if_neg h]
      exact add_nonneg h5 h4

/-- `PriceCalculator.calculate` is monotone in the requested amount. -/
theorem calculate_mono (orders : List Order)
    (hA : ∀ o ∈ orders, 0 ≤ o.amount) (hP : ∀ o ∈ orders, 0 ≤ o.price) :
    ∀ a1 a2, a1 ≤ a2 →
      PriceCalculator.calculate orders a1 ≤ PriceCalculator.calculate orders a2 := by
  induction orders with
  | nil => intro a1 a2 h; simp [PriceCalculator.calculate]
  | cons o rest ih =>
    intro a1 a2 h12
    by_cases h1 : a1 ≤ 0
    · rw [calculate_nonpos _ _ h1]
      exact calculate_nonneg _ hA hP a2
    · have h2 : ¬ a2 ≤ 0 := by omega
      have hA0 : 0 ≤ o.amount := hA o (by simp)
      have hP0 : 0 ≤ o.price := hP o (by simp)
      have hmin : min o.amount a1 ≤ min o.amount a2 := by omega
      have hterm : o.price * min o.amount a1 ≤ o.price * min o.amount a2 :=
        mul_le_mul_of_nonneg_left hmin hP0
      have hrem : a1 - min o.amount a1 ≤ a2 - min o.amount a2 := by omega
      have hrec := ih (fun x hx => hA x (by simp [hx])) (fun x hx => hP x (by simp [hx]))
        (a1 - min o.amount a1) (a2 - min o.amount a2) hrem
      simp only [PriceCalculator.calculate, if_neg h1, if_neg h2]
      exact add_le_add hterm hrec

end OMS

namespace OMS

/-- C1: the claim asserts that after every `placeTrade` the facade's order-id
index and the owning book's index agree on presence and amount, a fill's
order being dropped from the facade index iff its remaining amount reached
zero.  The code violates this: `_update_local_order_tracking` subtracts
`fill.filled_amount` from `order.amount` although the executor already
decremented the shared object, so a half fill (original amount exactly twice
the fill) deletes the order from the facade index while it still rests in
the book.  Evaluation at the failing input: from empty, `addOrder(1, "JPM",
BUY, 20, 20)` then `placeTrade("JPM", BUY, 10)` produces the single partial
fill `(1, 10, 20)`, yet leaves the facade `_orders` empty while the book
still indexes order 1 with remaining amount 10. -/
theorem c1_failing_input_eval :
    ((((OMState.empty.add_order 1 "JPM" Side.BUY 20 20).2).place_trade
        "JPM" Side.BUY 10).1).order_fills = [⟨1, 10, 20⟩] ∧
    ((((OMState.empty.add_order 1 "JPM" Side.BUY 20 20).2).place_trade
        "JPM" Side.BUY 10).2).orders = [] ∧
    ((((OMState.empty.add_order 1 "JPM" Side.BUY 20 20).2).place_trade
        "JPM" Side.BUY 10).2).sysGetOrder "JPM" 1 =
      some ⟨1, "JPM", Side.BUY, 10, 20⟩ := by
  decide

/-- C2: executor/calculator agreement (refinement).  For every well-formed
book, side and requested amount `≥ 0`, the trade returned by
`TradeExecutor.execute` has `total_price` equal to
`PriceCalculator.calculate` applied to the pre-mutation snapshot
`get_orders(side)`; consequently `calculate_price` evaluated on a state
immediately before `place_trade` on that same state equals the returned
trade's `total_price`. -/
theorem c2_executor_refines_calculator :
    (∀ (b : OrderBook) (side : Side) (amount : Int), WFBook b → 0 ≤ amount →
      ((TradeExecutor.execute b side amount).1).total_price =
        PriceCalculator.calculate (b.get_orders side) amount) ∧
    (∀ (s : OMState) (symbol : String) (side : Side) (amount : Int),
      (∀ p ∈ s.order_books, WFBook p.2) → 0 ≤ amount →
      ((s.place_trade symbol side amount).1).total_price =
        (s.calculate_price symbol side amount).1) := by
  constructor
  · intro b side amount _ _
    simp [TradeExecutor.execute, executeLoop_price]
  · intro s symbol side amount _ _
    simp [OMState.place_trade, OMState.calculate_price, executeLoop_price]

/-- Witness for C2 at a concrete well-formed book and system state. -/
theorem c2_witness :
    ((TradeExecutor.execute
        ⟨"JPM", [⟨1, "JPM", Side.BUY, 20, 20⟩], [],
          [(1, ⟨1, "JPM", Side.BUY, 20, 20⟩)]⟩ Side.BUY 22).1).total_price =
      PriceCalculator.calculate
        ((OrderBook.mk "JPM" [⟨1, "JPM", Side.BUY, 20, 20⟩] []
          [(1, ⟨1, "JPM", Side.BUY, 20, 20⟩)]).get_orders Side.BUY) 22 ∧
    (((OMState.mk [("JPM", ⟨"JPM", [⟨1, "JPM", Side.BUY, 20, 20⟩], [],
          [(1, ⟨1, "JPM", Side.BUY, 20, 20⟩)]⟩)]
        [(1, ⟨1, "JPM", Side.BUY, 20, 20⟩)]).place_trade "JPM" Side.BUY 22).1).total_price =
      ((OMState.mk [("JPM", ⟨"JPM", [⟨1, "JPM", Side.BUY, 20, 20⟩], [],
          [(1, ⟨1, "JPM", Side.BUY, 20, 20⟩)]⟩)]
        [(1, ⟨1, "JPM", Side.BUY, 20, 20⟩)]).calculate_price "JPM" Side.BUY 22).1 :=
  ⟨c2_executor_refines_calculator.1 _ Side.BUY 22 (by decide) (by decide),
   c2_executor_refines_calculator.2 _ "JPM" Side.BUY 22
     (by decide) (by decide)⟩

/-- C3 counterexample: the claim demands rejection whenever the id exists
anywhere in the system.  In the reachable state left by `addOrder(1, "JPM",
BUY, 20, 20); placeTrade("JPM", BUY, 10)` (the C1 tracking slip), order 1
still rests in the JPM book, yet `addOrder(1, "JPM", SELL, 5, 99)` succeeds
instead of failing with DuplicateOrder. -/
theorem c3_counterexample :
    ((((OMState.empty.add_order 1 "JPM" Side.BUY 20 20).2).place_trade
        "JPM" Side.BUY 10).2).sysGetOrder "JPM" 1 =
      some ⟨1, "JPM", Side.BUY, 10, 20⟩ ∧
    (((((OMState.empty.add_order 1 "JPM" Side.BUY 20 20).2).place_trade
        "JPM" Side.BUY 10).2).add_order 1 "JPM" Side.SELL 5 99).1 =
      AddResult.ok := by
  decide

/-- C3 (amended): for every system state and every `addOrder` call whose id
is present in the facade's order-id index (`_orders` — the index the
duplicate check consults), the call fails with the DuplicateOrder error and
every part of the state is left exactly as before the call. -/
theorem c3_amended_duplicate_rejection (s : OMState) (id : Int) (symbol : String)
    (side : Side) (amount price : Int)
    (h : (dlookup s.orders id).isSome = true) :
    (s.add_order id symbol side amount price).1 = AddResult.duplicateOrder ∧
    (s.add_order id symbol side amount price).2 = s := by
  unfold OMState.add_order
  rw [if_pos h]
  exact ⟨rfl, rfl⟩

/-- Witness for the amended C3: re-adding id 1 right after adding it fails
and leaves the state untouched. -/
theorem c3_amended_witness :
    (((OMState.empty.add_order 1 "JPM" Side.BUY 20 20).2).add_order
        1 "JPM" Side.BUY 50 25).1 = AddResult.duplicateOrder ∧
    (((OMState.empty.add_order 1 "JPM" Side.BUY 20 20).2).add_order
        1 "JPM" Side.BUY 50 25).2 = (OMState.empty.add_order 1 "JPM" Side.BUY 20 20).2 :=
  c3_amended_duplicate_rejection _ 1 "JPM" Side.BUY 50 25 (by decide)

/-- C4: fill conservation and totality.  For every book whose resting orders
all have positive amount, every side and every requested amount `≥ 0`,
`TradeExecutor.execute` returns a trade whose fill amounts sum to
`trade.amount`, with `trade.amount` at most the request, and whose
`total_price` is the sum of `fill_price * filled_amount` over the fills
(a request exceeding liquidity yields a partial fill; the function is total
and never raises). -/
theorem c4_fill_conservation (b : OrderBook) (side : Side) (amount : Int)
    (_hbuy : ∀ o ∈ b.buyOrders, 0 < o.amount)
    (_hsell : ∀ o ∈ b.sellOrders, 0 < o.amount)
    (hamt : 0 ≤ amount) :
    sumFilled ((TradeExecutor.execute b side amount).1).order_fills =
      ((TradeExecutor.execute b side amount).1).amount ∧
    ((TradeExecutor.execute b side amount).1).amount ≤ amount ∧
    ((TradeExecutor.execute b side amount).1).total_price =
      sumFillPrice ((TradeExecutor.execute b side amount).1).order_fills := by
  refine ⟨?_, ?_, ?_⟩
  · simp [TradeExecutor.execute, executeLoop_filled]
  · simpa [TradeExecutor.execute] using
      executeLoop_filled_le (b.get_orders side) b [] amount hamt
  · simp [TradeExecutor.execute, executeLoop_price_fills]

/-- Witness for C4 at a concrete book with more requested than available. -/
theorem c4_witness :
    sumFilled ((TradeExecutor.execute
        ⟨"JPM", [⟨1, "JPM", Side.BUY, 20, 20⟩], [],
          [(1, ⟨1, "JPM", Side.BUY, 20, 20⟩)]⟩ Side.BUY 50).1).order_fills =
      ((TradeExecutor.execute
        ⟨"JPM", [⟨1, "JPM", Side.BUY, 20, 20⟩], [],
          [(1, ⟨1, "JPM", Side.BUY, 20, 20⟩)]⟩ Side.BUY 50).1).amount ∧
    ((TradeExecutor.execute
        ⟨"JPM", [⟨1, "JPM", Side.BUY, 20, 20⟩], [],
          [(1, ⟨1, "JPM", Side.BUY, 20, 20⟩)]⟩ Side.BUY 50).1).amount ≤ 50 ∧
    ((TradeExecutor.execute
        ⟨"JPM", [⟨1, "JPM", Side.BUY, 20, 20⟩], [],
          [(1, ⟨1, "JPM", Side.BUY, 20, 20⟩)]⟩ Side.BUY 50).1).total_price =
      sumFillPrice ((TradeExecutor.execute
        ⟨"JPM", [⟨1, "JPM", Side.BUY, 20, 20⟩], [],
          [(1, ⟨1, "JPM", Side.BUY, 20, 20⟩)]⟩ Side.BUY 50).1).order_fills :=
  c4_fill_conservation _ Side.BUY 50 (by decide) (by decide) (by decide)

/-- C7: price monotonicity.  For any fixed order list with non-negative
amounts and prices, the calculated price is monotone non-decreasing in the
requested quantity, and it is 0 for a non-positive request or an empty
list. -/
theorem c7_price_monotonicity (orders : List Order) (a1 a2 : Int)
    (hA : ∀ o ∈ orders, 0 ≤ o.amount) (hP : ∀ o ∈ orders, 0 ≤ o.price)
    (h12 : a1 ≤ a2) :
    PriceCalculator.calculate orders a1 ≤ PriceCalculator.calculate orders a2 ∧
    (∀ a : Int, a ≤ 0 → PriceCalculator.calculate orders a = 0) ∧
    (∀ a : Int, PriceCalculator.calculate [] a = 0) :=
  ⟨calculate_mono orders hA hP a1 a2 h12,
   fun a ha => calculate_nonpos orders a ha,
   fun _ => rfl⟩

/-- Witness for C7 at the worked liquidity example of the spec. -/
theorem c7_witness :
    PriceCalculator.calculate
        [⟨1, "JPM", Side.BUY, 20, 20⟩, ⟨4, "JPM", Side.BUY, 10, 21⟩] 10 ≤
      PriceCalculator.calculate
        [⟨1, "JPM", Side.BUY, 20, 20⟩, ⟨4, "JPM", Side.BUY, 10, 21⟩] 22 ∧
    (∀ a : Int, a ≤ 0 →
      PriceCalculator.calculate
        [⟨1, "JPM", Side.BUY, 20, 20⟩, ⟨4, "JPM", Side.BUY, 10, 21⟩] a = 0) ∧
    (∀ a : Int, PriceCalculator.calculate [] a = 0) :=
  c7_price_monotonicity _ 10 22 (by decide) (by decide) (by decide)

/-- C8: end-to-end scenario.  From empty: `addOrder(1, "JPM", BUY, 20, 20)`,
`addOrder(4, "JPM", BUY, 10, 21)`; then `calculatePrice("JPM", BUY, 22) =
442`; `placeTrade("JPM", BUY, 22)` returns amount 22, total_price 442 and
exactly the fills `(1, 20, 20)` then `(4, 2, 21)`; a subsequent
`calculatePrice("JPM", BUY, 8)` returns 168. -/
theorem c8_end_to_end :
    (((((OMState.empty.add_order 1 "JPM" Side.BUY 20 20).2).add_order
        4 "JPM" Side.BUY 10 21).2).calculate_price "JPM" Side.BUY 22).1 = 442 ∧
    (((((OMState.empty.add_order 1 "JPM" Side.BUY 20 20).2).add_order
        4 "JPM" Side.BUY 10 21).2).place_trade "JPM" Side.BUY 22).1 =
      ⟨"JPM", Side.BUY, 22, 442, [⟨1, 20, 20⟩, ⟨4, 2, 21⟩]⟩ ∧
    ((((((OMState.empty.add_order 1 "JPM" Side.BUY 20 20).2).add_order
        4 "JPM" Side.BUY 10 21).2).place_trade "JPM" Side.BUY 22).2.calculate_price
        "JPM" Side.BUY 8).1 = 168 := by
  decide

/-- C9: idempotent removal.  For every system state and an id present
nowhere in the system (not in the facade index and in no book),
`removeOrder(id)` raises nothing and changes no state, and doing it twice in
a row is likewise a no-op both times. -/
theorem c9_idempotent_removal (s : OMState) (id : Int)
    (hfac : dlookup s.orders id = none)
    (_hbooks : ∀ p ∈ s.order_books, NotInBook p.2 id) :
    s.remove_order id = s ∧
    (s.remove_order id).remove_order id = s.remove_order id := by
  have h1 : s.remove_order id = s := by
    unfold OMState.remove_order
    rw [hfac]
  exact ⟨h1, by rw [h1, h1]⟩

/-- Witness for C9: removing the absent id 999 from a one-order state. -/
theorem c9_witness :
    ((OMState.empty.add_order 1 "JPM" Side.BUY 20 20).2).remove_order 999 =
      (OMState.empty.add_order 1 "JPM" Side.BUY 20 20).2 ∧
    (((OMState.empty.add_order 1 "JPM" Side.BUY 20 20).2).remove_order 999).remove_order 999 =
      ((OMState.empty.add_order 1 "JPM" Side.BUY 20 20).2).remove_order 999 :=
  c9_idempotent_removal _ 999 (by decide) (by decide)

/-- C10: serialization round trip.  For every order (its side being one of
the two enum members), `from_dict` after `to_dict` restores the order in all
five fields. -/
theorem c10_serialization_round_trip (o : Order) :
    Order.from_dict (Order.to_dict o) = some o := by
  cases o with
  | mk id sym sd a p => cases sd <;> rfl

end OMS


namespace OMS

/-- Lookup after a dict assignment. -/
theorem dlookup_dset {κ α : Type} [DecidableEq κ] (l : List (κ × α)) (k k' : κ) (v : α) :
    dlookup (dset l k v) k' = if k' = k then some v else dlookup l k' := by
  induction l with
  | nil =>
    rcases eq_or_ne k' k with h | h
    · subst h; simp [dset, dlookup]
    · simp [dset, dlookup, h, (Ne.symm h : k ≠ k')]
  | cons p rest ih =>
    rcases eq_or_ne p.1 k with hp | hp
    · subst hp
      rcases eq_or_ne k' p.1 with h | h
      · subst h; simp [dset, dlookup]
      · simp [dset, dlookup, h, (Ne.symm h : p.1 ≠ k')]
    · rcases eq_or_ne p.1 k' with hq | hq
      · subst hq
        simp [dset, dlookup, hp, (Ne.symm hp : k ≠ p.1)]
      · simp [dset, dlookup, hp, hq, ih]

/-- Keys present after a dict assignment. -/
theorem mem_keys_dset {κ α : Type} [DecidableEq κ] (l : List (κ × α)) (k k' : κ) (v : α) :
    k' ∈ (dset l k v).map Prod.fst ↔ k' = k ∨ k' ∈ l.map Prod.fst := by
  induction l with
  | nil => simp [dset]
  | cons p rest ih =>
    rcases eq_or_ne p.1 k with hp | hp
    · subst hp; simp [dset]
    · simp [dset, hp, ih]
      tauto

/-- A dict assignment keeps the keys without duplicates. -/
theorem keys_dset_nodup {κ α : Type} [DecidableEq κ] (l : List (κ × α)) (k : κ) (v : α)
    (h : (l.map Prod.fst).Nodup) : ((dset l k v).map Prod.fst).Nodup := by
  induction l with
  | nil => simp [dset]
  | cons p rest ih =>
    simp only [List.map_cons, List.nodup_cons] at h
    rcases eq_or_ne p.1 k with hp | hp
    · subst hp
      simpa [dset] using h
    · simp only [dset, if_neg hp, List.map_cons, List.nodup_cons]
      refine ⟨?_, ih h.2⟩
      rw [mem_keys_dset]
      rintro (h1 | h1)
      · exact hp h1
      · exact h.1 h1

/-- Entries of a dict after assignment come from the old dict or are the new pair. -/
theorem mem_dset {κ α : Type} [DecidableEq κ] (l : List (κ × α)) (k : κ) (v : α)
    (p : κ × α) (hp : p ∈ dset l k v) : p ∈ l ∨ p = (k, v) := by
  induction l with
  | nil => simpa [dset] using hp
  | cons q rest ih =>
    rcases eq_or_ne q.1 k with hq | hq
    · simp only [dset, if_pos hq] at hp
      rcases List.mem_cons.mp hp with h | h
      · exact Or.inr h
      · exact Or.inl (List.mem_cons_of_mem _ h)
    · simp only [dset, if_neg hq] at hp
      rcases List.mem_cons.mp hp with h | h
      · exact Or.inl (h ▸ List.mem_cons_self _ _)
      · rcases ih h with h' | h'
        · exact Or.inl (List.mem_cons_of_mem _ h')
        · exact Or.inr h'

/-- A successful lookup exhibits a dict entry. -/
theorem dlookup_mem {κ α : Type} [DecidableEq κ] (l : List (κ × α)) (k : κ) (v : α)
    (h : dlookup l k = some v) : (k, v) ∈ l := by
  induction l with
  | nil => simp [dlookup] at h
  | cons p rest ih =>
    rcases eq_or_ne p.1 k with hp | hp
    · simp only [dlookup, if_pos hp] at h
      obtain rfl := Option.some.inj h
      subst hp
      exact List.mem_cons_self _ _
    · simp only [dlookup, if_neg hp] at h
      exact List.mem_cons_of_mem _ (ih h)

/-- Deletion is a sublist. -/
theorem derase_sublist {κ α : Type} [DecidableEq κ] (l : List (κ × α)) (k : κ) :
    List.Sublist (derase l k) l := by
  induction l with
  | nil => simp [derase]
  | cons p rest ih =>
    rcases eq_or_ne p.1 k with hp | hp
    · rw [derase, if_pos hp]
      exact List.sublist_cons_self p rest
    · rw [derase, if_neg hp]
      exact ih.cons₂ p

/-- Lookup of a different key is unaffected by deletion. -/
theorem dlookup_derase_ne {κ α : Type} [DecidableEq κ] (l : List (κ × α)) (k k' : κ)
    (h : k' ≠ k) : dlookup (derase l k) k' = dlookup l k' := by
  induction l with
  | nil => simp [derase]
  | cons p rest ih =>
    rcases eq_or_ne p.1 k with hp | hp
    · subst hp
      simp [derase, dlookup, (Ne.symm h : p.1 ≠ k')]
    · simp [derase, dlookup, hp, ih]

/-- With unique keys, a deleted key is gone. -/
theorem dlookup_derase_self {κ α : Type} [DecidableEq κ] (l : List (κ × α)) (k : κ)
    (h : (l.map Prod.fst).Nodup) : dlookup (derase l k) k = none := by
  induction l with
  | nil => simp [derase, dlookup]
  | cons p rest ih =>
    simp only [List.map_cons, List.nodup_cons] at h
    rcases eq_or_ne p.1 k with hp | hp
    · subst hp
      simp only [derase, if_pos rfl]
      have hnone : ∀ m : List (κ × α), p.1 ∉ m.map Prod.fst → dlookup m p.1 = none := by
        intro m
        induction m with
        | nil => intro _; rfl
        | cons q qs ihq =>
          intro hm
          simp only [List.map_cons, List.mem_cons, not_or] at hm
          have hq' : q.1 ≠ p.1 := fun hq => hm.1 hq.symm
          simp [dlookup, hq', ihq hm.2]
      exact hnone rest h.1
    · simp [derase, dlookup, hp, ih h.2]

/-- Entries after deletion come from the old dict. -/
theorem mem_derase {κ α : Type} [DecidableEq κ] (l : List (κ × α)) (k : κ)
    (p : κ × α) (hp : p ∈ derase l k) : p ∈ l :=
  (derase_sublist l k).subset hp

/-- With unique keys, no entry for the deleted key remains. -/
theorem keys_derase_ne {κ α : Type} [DecidableEq κ] (l : List (κ × α)) (k : κ)
    (h : (l.map Prod.fst).Nodup) (p : κ × α) (hp : p ∈ derase l k) : p.1 ≠ k := by
  induction l with
  | nil => simp [derase] at hp
  | cons q rest ih =>
    simp only [List.map_cons, List.nodup_cons] at h
    rcases eq_or_ne q.1 k with hq | hq
    · subst hq
      simp only [derase, if_pos rfl] at hp
      intro he
      exact h.1 (he ▸ List.mem_map_of_mem Prod.fst hp)
    · simp only [derase, if_neg hq] at hp
      rcases List.mem_cons.mp hp with h' | h'
      · exact h' ▸ hq
      · exact ih h.2 h'

/-- Keys after deletion keep their uniqueness. -/
theorem keys_derase_nodup {κ α : Type} [DecidableEq κ] (l : List (κ × α)) (k : κ)
    (h : (l.map Prod.fst).Nodup) : ((derase l k).map Prod.fst).Nodup :=
  ((derase_sublist l k).map Prod.fst).nodup h

end OMS

namespace OMS

/-- Membership in an insertion. -/
theorem mem_insertSorted (key : Order → Int) (o x : Order) (l : List Order) :
    x ∈ insertSorted key o l ↔ x = o ∨ x ∈ l := by
  induction l with
  | nil => simp [insertSorted]
  | cons y ys ih =>
    by_cases h : key y ≤ key o
    · rw [insertSorted, if_pos h, List.mem_cons, ih, List.mem_cons]
      tauto
    · rw [insertSorted, if_neg h, List.mem_cons, List.mem_cons]

/-- Insertion preserves key-sortedness. -/
theorem insertSorted_sorted (key : Order → Int) (o : Order) (l : List Order)
    (h : l.Pairwise (fun a b => key a ≤ key b)) :
    (insertSorted key o l).Pairwise (fun a b => key a ≤ key b) := by
  induction l with
  | nil => simp [insertSorted]
  | cons y ys ih =>
    rcases List.pairwise_cons.mp h with ⟨hy, hys⟩
    by_cases hk : key y ≤ key o
    · rw [insertSorted, if_pos hk]
      refine List.pairwise_cons.mpr ⟨?_, ih hys⟩
      intro z hz
      rcases (mem_insertSorted key o z ys).mp hz with rfl | hz'
      · exact hk
      · exact hy z hz'
    · rw [insertSorted, if_neg hk]
      refine List.pairwise_cons.mpr ⟨?_, h⟩
      intro z hz
      rcases List.mem_cons.mp hz with rfl | hz'
      · omega
      · exact le_trans (by omega) (hy z hz')

/-- Stable sort of a snoc: insert the new element into the sorted prefix. -/
theorem ssort_snoc (key : Order → Int) (l : List Order) (o : Order) :
    ssort key (l ++ [o]) = insertSorted key o (ssort key l) := by
  simp [ssort, List.foldl_append]

/-- Membership in a fold of insertions. -/
theorem mem_foldl_insertSorted (key : Order → Int) (l : List Order) :
    ∀ (acc : List Order) (x : Order),
      x ∈ l.foldl (fun a o => insertSorted key o a) acc ↔ x ∈ acc ∨ x ∈ l := by
  induction l with
  | nil => intro acc x; simp
  | cons y ys ih =>
    intro acc x
    simp only [List.foldl_cons]
    rw [ih, mem_insertSorted]
    simp
    tauto

/-- Membership in the stable sort. -/
theorem mem_ssort (key : Order → Int) (l : List Order) (x : Order) :
    x ∈ ssort key l ↔ x ∈ l := by
  rw [ssort, mem_foldl_insertSorted]
  simp

/-- The stable sort is key-sorted. -/
theorem ssort_sorted (key : Order → Int) (l : List Order) :
    (ssort key l).Pairwise (fun a b => key a ≤ key b) := by
  have main : ∀ (acc : List Order), acc.Pairwise (fun a b => key a ≤ key b) →
      (l.foldl (fun a o => insertSorted key o a) acc).Pairwise
        (fun a b => key a ≤ key b) := by
    induction l with
    | nil => intro acc h; simpa using h
    | cons y ys ih =>
      intro acc h
      exact ih (insertSorted key y acc) (insertSorted_sorted key y acc h)
  exact main [] (by simp)

/-- Erasing an id never present is the identity. -/
theorem eraseById_of_forall_ne (id : Int) (l : List Order)
    (h : ∀ x ∈ l, x.order_id ≠ id) : eraseById id l = l := by
  induction l with
  | nil => rfl
  | cons y ys ih =>
    rw [eraseById, if_neg (h y (List.mem_cons_self y ys))]
    rw [ih (fun x hx => h x (List.mem_cons_of_mem _ hx))]

/-- Erasure is a sublist. -/
theorem eraseById_sublist (id : Int) (l : List Order) :
    List.Sublist (eraseById id l) l := by
  induction l with
  | nil => simp [eraseById]
  | cons y ys ih =>
    by_cases h : y.order_id = id
    · rw [eraseById, if_pos h]
      exact List.sublist_cons_self y ys
    · rw [eraseById, if_neg h]
      exact ih.cons₂ y

/-- Membership after erasure. -/
theorem mem_eraseById (id : Int) (l : List Order) (x : Order)
    (hx : x ∈ eraseById id l) : x ∈ l :=
  (eraseById_sublist id l).subset hx

/-- An element with a different id survives erasure. -/
theorem mem_eraseById_of_ne (id : Int) (l : List Order) (x : Order)
    (hx : x ∈ l) (hne : x.order_id ≠ id) : x ∈ eraseById id l := by
  induction l with
  | nil => simp at hx
  | cons y ys ih =>
    by_cases h : y.order_id = id
    · rw [eraseById, if_pos h]
      rcases List.mem_cons.mp hx with rfl | h'
      · exact absurd h hne
      · exact h'
    · rw [eraseById, if_neg h]
      rcases List.mem_cons.mp hx with rfl | h'
      · exact List.mem_cons_self _ _
      · exact List.mem_cons_of_mem _ (ih h')

/-- With unique ids, nothing with the erased id survives. -/
theorem eraseById_forall_ne (id : Int) (l : List Order)
    (h : (l.map Order.order_id).Nodup) :
    ∀ x ∈ eraseById id l, x.order_id ≠ id := by
  induction l with
  | nil => simp [eraseById]
  | cons y ys ih =>
    simp only [List.map_cons, List.nodup_cons] at h
    by_cases hy : y.order_id = id
    · rw [eraseById, if_pos hy]
      intro x hx he
      exact h.1 ((hy ▸ he : x.order_id = y.order_id) ▸ List.mem_map_of_mem Order.order_id hx)
    · rw [eraseById, if_neg hy]
      intro x hx
      rcases List.mem_cons.mp hx with rfl | h'
      · exact hy
      · exact ih h.2 x h'

/-- Erasing the freshly inserted element undoes the insertion (the id being
absent from the rest). -/
theorem eraseById_insertSorted_self (key : Order → Int) (o : Order) (id : Int)
    (l : List Order) (ho : o.order_id = id) (h : ∀ x ∈ l, x.order_id ≠ id) :
    eraseById id (insertSorted key o l) = l := by
  induction l with
  | nil => simp [insertSorted, eraseById, ho]
  | cons y ys ih =>
    by_cases hk : key y ≤ key o
    · rw [insertSorted, if_pos hk, eraseById,
        if_neg (h y (List.mem_cons_self y ys))]
      rw [ih (fun x hx => h x (List.mem_cons_of_mem _ hx))]
    · rw [insertSorted, if_neg hk, eraseById, if_pos ho]

/-- Erasure of a different id commutes with insertion into a sorted list. -/
theorem eraseById_insertSorted_ne (key : Order → Int) (o : Order) (id : Int)
    (l : List Order) (hsort : l.Pairwise (fun a b => key a ≤ key b))
    (ho : o.order_id ≠ id) :
    eraseById id (insertSorted key o l) = insertSorted key o (eraseById id l) := by
  induction l with
  | nil => simp [insertSorted, eraseById, ho]
  | cons y ys ih =>
    rcases List.pairwise_cons.mp hsort with ⟨hy, hys⟩
    by_cases hk : key y ≤ key o
    · by_cases hid : y.order_id = id
      · rw [insertSorted, if_pos hk, eraseById, if_pos hid, eraseById, if_pos hid]
      · have hL : eraseById id (insertSorted key o (y :: ys)) =
            y :: eraseById id (insertSorted key o ys) := by
          rw [insertSorted, if_pos hk, eraseById, if_neg hid]
        have hR : insertSorted key o (eraseById id (y :: ys)) =
            y :: insertSorted key o (eraseById id ys) := by
          rw [eraseById, if_neg hid, insertSorted, if_pos hk]
        rw [hL, hR, ih hys]
    · by_cases hid : y.order_id = id
      · rw [insertSorted, if_neg hk, eraseById, if_neg ho, eraseById, if_pos hid]
        cases ys with
        | nil => rfl
        | cons z zs =>
          have hz : ¬ key z ≤ key o := by
            have := hy z (List.mem_cons_self z zs)
            omega
          rw [insertSorted, if_neg hz]
      · have hL : eraseById id (insertSorted key o (y :: ys)) =
            o :: y :: eraseById id ys := by
          rw [insertSorted, if_neg hk, eraseById, if_neg ho, eraseById, if_neg hid]
        have hR : insertSorted key o (eraseById id (y :: ys)) =
            o :: y :: eraseById id ys := by
          rw [eraseById, if_neg hid, insertSorted, if_neg hk]
        rw [hL, hR]

end OMS

namespace OMS

/-- Erasing with the id absent from the prefix skips the prefix. -/
theorem eraseById_append_of_forall_ne (id : Int) (l1 l2 : List Order)
    (h : ∀ x ∈ l1, x.order_id ≠ id) :
    eraseById id (l1 ++ l2) = l1 ++ eraseById id l2 := by
  induction l1 with
  | nil => rfl
  | cons y ys ih =>
    rw [List.cons_append, eraseById, if_neg (h y (List.mem_cons_self y ys)),
      ih (fun x hx => h x (List.mem_cons_of_mem _ hx)), List.cons_append]

/-- Erasing a different id commutes with a snoc. -/
theorem eraseById_snoc_ne (id : Int) (l : List Order) (o : Order)
    (ho : o.order_id ≠ id) :
    eraseById id (l ++ [o]) = eraseById id l ++ [o] := by
  induction l with
  | nil => simp [eraseById, ho]
  | cons y ys ih =>
    by_cases hy : y.order_id = id
    · rw [List.cons_append, eraseById, if_pos hy, eraseById, if_pos hy]
    · rw [List.cons_append, eraseById, if_neg hy, eraseById, if_neg hy, ih,
        List.cons_append]

/-- Erasure by id commutes with the stable sort when ids are unique. -/
theorem eraseById_ssort (key : Order → Int) (id : Int) (l : List Order)
    (h : (l.map Order.order_id).Nodup) :
    eraseById id (ssort key l) = ssort key (eraseById id l) := by
  induction l using List.reverseRecOn with
  | nil => rfl
  | append_singleton m o ih =>
    rw [List.map_append] at h
    rcases List.nodup_append.mp h with ⟨hm, _, hdisj⟩
    have ho : o.order_id ∉ m.map Order.order_id :=
      fun hmem => hdisj hmem (by simp)
    rw [ssort_snoc]
    by_cases hio : o.order_id = id
    · have hids : ∀ x ∈ ssort key m, x.order_id ≠ id := by
        intro x hx he
        exact ho (hio ▸ he ▸ List.mem_map_of_mem Order.order_id
          ((mem_ssort key m x).mp hx))
      rw [eraseById_insertSorted_self key o id (ssort key m) hio hids]
      have hml : ∀ x ∈ m, x.order_id ≠ id := by
        intro x hx he
        exact ho (hio ▸ he ▸ List.mem_map_of_mem Order.order_id hx)
      rw [eraseById_append_of_forall_ne id m [o] hml, eraseById, if_pos hio]
      simp
    · rw [eraseById_insertSorted_ne key o id (ssort key m) (ssort_sorted key m) hio,
        ih hm, ← ssort_snoc, eraseById_snoc_ne id m o hio]

/-- A key-preserving map commutes with insertion. -/
theorem map_insertSorted (key : Order → Int) (f : Order → Order)
    (hf : ∀ x, key (f x) = key x) (o : Order) (l : List Order) :
    (insertSorted key o l).map f = insertSorted key (f o) (l.map f) := by
  induction l with
  | nil => simp [insertSorted]
  | cons y ys ih =>
    by_cases h : key y ≤ key o
    · rw [insertSorted, if_pos h, List.map_cons, ih, List.map_cons,
        insertSorted, if_pos (show key (f y) ≤ key (f o) by rw [hf, hf]; exact h)]
    · rw [insertSorted, if_neg h, List.map_cons, List.map_cons,
        insertSorted, if_neg (show ¬ key (f y) ≤ key (f o) by rw [hf, hf]; exact h)]

/-- A key-preserving map commutes with the stable sort. -/
theorem map_ssort (key : Order → Int) (f : Order → Order)
    (hf : ∀ x, key (f x) = key x) (l : List Order) :
    (ssort key l).map f = ssort key (l.map f) := by
  induction l using List.reverseRecOn with
  | nil => rfl
  | append_singleton m o ih =>
    rw [ssort_snoc, map_insertSorted key f hf, ih, List.map_append]
    simp [ssort_snoc]

/-- The amount rewrite keeps exactly the same ids. -/
theorem setAmountById_map_ids (id a : Int) (l : List Order) :
    (setAmountById id a l).map Order.order_id = l.map Order.order_id := by
  rw [setAmountById, List.map_map]
  exact List.map_eq_map_iff.mpr (fun x _ => by by_cases hx : x.order_id = id <;> simp [hx])

/-- Rewriting an absent id is the identity. -/
theorem setAmountById_of_forall_ne (id a : Int) (l : List Order)
    (h : ∀ x ∈ l, x.order_id ≠ id) : setAmountById id a l = l := by
  rw [setAmountById]
  have : ∀ x ∈ l, (if x.order_id = id then { x with amount := a } else x) = x :=
    fun x hx => if_neg (h x hx)
  rw [List.map_eq_map_iff.mpr this]
  simp

/-- The amount rewrite commutes with the stable sort on a price key. -/
theorem setAmountById_ssort (key : Order → Int) (id a : Int) (l : List Order)
    (hkey : ∀ x : Order, key { x with amount := a } = key x) :
    setAmountById id a (ssort key l) = ssort key (setAmountById id a l) := by
  have hf : ∀ x : Order,
      key (if x.order_id = id then { x with amount := a } else x) = key x := by
    intro x
    by_cases hx : x.order_id = id
    · rw [if_pos hx, hkey]
    · rw [if_neg hx]
  exact map_ssort key _ hf l

end OMS

namespace OMS

/-- Keys of the index after a value rewrite at one key. -/
theorem keys_mapAt {κ α : Type} [DecidableEq κ] (l : List (κ × α)) (id : κ) (g : α → α) :
    ((l.map (fun p => if p.1 = id then (p.1, g p.2) else p)).map Prod.fst) =
      l.map Prod.fst := by
  rw [List.map_map]
  exact List.map_eq_map_iff.mpr (fun p _ => by by_cases hp : p.1 = id <;> simp [hp])

/-- Lookup after a value rewrite at one key. -/
theorem dlookup_mapAt {κ α : Type} [DecidableEq κ] (l : List (κ × α)) (id k : κ)
    (g : α → α) :
    dlookup (l.map (fun p => if p.1 = id then (p.1, g p.2) else p)) k =
      if k = id then (dlookup l id).map g else dlookup l k := by
  induction l with
  | nil => simp [dlookup]
  | cons p rest ih =>
    rcases eq_or_ne p.1 id with hp | hp
    · subst hp
      rcases eq_or_ne k p.1 with hk | hk
      · subst hk
        simp [dlookup]
      · simp [dlookup, hk, (Ne.symm hk : p.1 ≠ k), ih]
    · rcases eq_or_ne p.1 k with hq | hq
      · subst hq
        simp [dlookup, hp]
      · simp [dlookup, hp, hq, ih]

end OMS


namespace OMS

/-- One `add_order` step (fresh id) preserves the C5 invariant. -/
theorem c5_step_add (b : OrderBook) (hb hs : List Order) (o : Order)
    (hinv : C5Inv b hb hs) (hval : opValid b (BookOp.add o) = true) :
    C5Inv (applyOp b (BookOp.add o))
      (survStep Side.BUY hb (BookOp.add o)) (survStep Side.SELL hs (BookOp.add o)) := by
  obtain ⟨h1, h2, h3, h4, h5, h6, h7, h8⟩ := hinv
  have hfresh : dlookup b.orderIndex o.order_id = none := by
    simpa [opValid, OrderBook.get_order, Option.isNone_iff_eq_none] using hval
  have hnotin : ∀ x ∈ hb ++ hs, x.order_id ≠ o.order_id := h7 o.order_id hfresh
  have hid_notin : o.order_id ∉ (hb ++ hs).map Order.order_id := by
    intro hmem
    rcases List.mem_map.mp hmem with ⟨x, hx, hxe⟩
    exact hnotin x hx hxe
  cases hside : o.side with
  | BUY =>
    have happ : applyOp b (BookOp.add o) =
        { b with buyOrders := insertSorted buyKey o b.buyOrders,
                 orderIndex := dset b.orderIndex o.order_id o } := by
      simp [applyOp, OrderBook.add_order, hside]
    have hgb : survStep Side.BUY hb (BookOp.add o) = hb ++ [o] := by
      simp [survStep, hside]
    have hgs : survStep Side.SELL hs (BookOp.add o) = hs := by
      simp [survStep, hside]
    rw [happ, hgb, hgs]
    have hperm : List.Perm ((hb ++ [o]) ++ hs) (o :: (hb ++ hs)) := by
      rw [List.append_assoc]
      exact List.perm_middle
    refine ⟨?_, h2, ?_, h4, ?_, keys_dset_nodup _ _ _ h6, ?_, ?_⟩
    · rw [h1, ssort_snoc]
    · intro x hx
      rcases List.mem_append.mp hx with hx' | hx'
      · exact h3 x hx'
      · rw [List.mem_singleton.mp hx']
        exact hside
    · rw [(hperm.map Order.order_id).nodup_iff]
      exact List.nodup_cons.mpr ⟨hid_notin, h5⟩
    · intro id hid x hx
      rw [dlookup_dset] at hid
      by_cases he : id = o.order_id
      · rw [if_pos he] at hid
        exact absurd hid (by simp)
      · rw [if_neg he] at hid
        rcases List.mem_append.mp hx with hx' | hx'
        · rcases List.mem_append.mp hx' with hx'' | hx''
          · exact h7 id hid x (List.mem_append.mpr (Or.inl hx''))
          · rw [List.mem_singleton.mp hx'']
            exact fun hoe => he hoe.symm
        · exact h7 id hid x (List.mem_append.mpr (Or.inr hx'))
    · intro id o' hsome
      rw [dlookup_dset] at hsome
      by_cases he : id = o.order_id
      · rw [if_pos he] at hsome
        obtain rfl := Option.some.inj hsome
        exact ⟨he.symm, Or.inl (List.mem_append.mpr (Or.inr (List.mem_singleton.mpr rfl)))⟩
      · rw [if_neg he] at hsome
        rcases h8 id o' hsome with ⟨hids, hmem⟩
        refine ⟨hids, ?_⟩
        rcases hmem with hm | hm
        · exact Or.inl (List.mem_append.mpr (Or.inl hm))
        · exact Or.inr hm
  | SELL =>
    have hnb : o.side ≠ Side.BUY := by rw [hside]; intro h; cases h
    have happ : applyOp b (BookOp.add o) =
        { b with sellOrders := insertSorted sellKey o b.sellOrders,
                 orderIndex := dset b.orderIndex o.order_id o } := by
      simp [applyOp, OrderBook.add_order, hnb]
    have hgb : survStep Side.BUY hb (BookOp.add o) = hb := by
      simp [survStep, hside]
    have hgs : survStep Side.SELL hs (BookOp.add o) = hs ++ [o] := by
      simp [survStep, hside]
    rw [happ, hgb, hgs]
    have hperm : List.Perm (hb ++ (hs ++ [o])) (o :: (hb ++ hs)) := by
      have he : hb ++ (hs ++ [o]) = (hb ++ hs) ++ [o] := by rw [List.append_assoc]
      rw [he]
      simpa using (@List.perm_middle Order o (hb ++ hs) [])
    refine ⟨h1, ?_, h3, ?_, ?_, keys_dset_nodup _ _ _ h6, ?_, ?_⟩
    · rw [h2, ssort_snoc]
    · intro x hx
      rcases List.mem_append.mp hx with hx' | hx'
      · exact h4 x hx'
      · rw [List.mem_singleton.mp hx']
        exact hside
    · rw [(hperm.map Order.order_id).nodup_iff]
      exact List.nodup_cons.mpr ⟨hid_notin, h5⟩
    · intro id hid x hx
      rw [dlookup_dset] at hid
      by_cases he : id = o.order_id
      · rw [if_pos he] at hid
        exact absurd hid (by simp)
      · rw [if_neg he] at hid
        rcases List.mem_append.mp hx with hx' | hx'
        · exact h7 id hid x (List.mem_append.mpr (Or.inl hx'))
        · rcases List.mem_append.mp hx' with hx'' | hx''
          · exact h7 id hid x (List.mem_append.mpr (Or.inr hx''))
          · rw [List.mem_singleton.mp hx'']
            exact fun hoe => he hoe.symm
    · intro id o' hsome
      rw [dlookup_dset] at hsome
      by_cases he : id = o.order_id
      · rw [if_pos he] at hsome
        obtain rfl := Option.some.inj hsome
        exact ⟨he.symm, Or.inr (List.mem_append.mpr (Or.inr (List.mem_singleton.mpr rfl)))⟩
      · rw [if_neg he] at hsome
        rcases h8 id o' hsome with ⟨hids, hmem⟩
        refine ⟨hids, ?_⟩
        rcases hmem with hm | hm
        · exact Or.inl hm
        · exact Or.inr (List.mem_append.mpr (Or.inl hm))

end OMS

namespace OMS

/-- One `remove_order` step preserves the C5 invariant. -/
theorem c5_step_remove (b : OrderBook) (hb hs : List Order) (id : Int)
    (hinv : C5Inv b hb hs) :
    C5Inv (applyOp b (BookOp.remove id))
      (survStep Side.BUY hb (BookOp.remove id)) (survStep Side.SELL hs (BookOp.remove id)) := by
  obtain ⟨h1, h2, h3, h4, h5, h6, h7, h8⟩ := hinv
  have hgb : survStep Side.BUY hb (BookOp.remove id) = eraseById id hb := rfl
  have hgs : survStep Side.SELL hs (BookOp.remove id) = eraseById id hs := rfl
  have hbnodup : (hb.map Order.order_id).Nodup := by
    rw [List.map_append] at h5
    exact (List.nodup_append.mp h5).1
  have hsnodup : (hs.map Order.order_id).Nodup := by
    rw [List.map_append] at h5
    exact (List.nodup_append.mp h5).2.1
  have hdisj : (hb.map Order.order_id).Disjoint (hs.map Order.order_id) := by
    rw [List.map_append] at h5
    exact (List.nodup_append.mp h5).2.2
  rw [hgb, hgs]
  cases hl : dlookup b.orderIndex id with
  | none =>
    have hne : ∀ x ∈ hb ++ hs, x.order_id ≠ id := h7 id hl
    have heb : eraseById id hb = hb :=
      eraseById_of_forall_ne id hb (fun x hx => hne x (List.mem_append.mpr (Or.inl hx)))
    have hes : eraseById id hs = hs :=
      eraseById_of_forall_ne id hs (fun x hx => hne x (List.mem_append.mpr (Or.inr hx)))
    have happ : applyOp b (BookOp.remove id) = b := by
      simp [applyOp, OrderBook.remove_order, hl]
    rw [happ, heb, hes]
    exact ⟨h1, h2, h3, h4, h5, h6, h7, h8⟩
  | some o =>
    rcases h8 id o hl with ⟨hoid, hmem⟩
    rcases hmem with hob | hos
    · -- the indexed order rests on the BUY side
      have hsideo : o.side = Side.BUY := h3 o hob
      have happ : applyOp b (BookOp.remove id) =
          { b with buyOrders := eraseById id b.buyOrders,
                   orderIndex := derase b.orderIndex id } := by
        simp [applyOp, OrderBook.remove_order, hl, hsideo]
      have hid_in_b : id ∈ hb.map Order.order_id :=
        hoid ▸ List.mem_map_of_mem Order.order_id hob
      have hs_ne : ∀ x ∈ hs, x.order_id ≠ id := by
        intro x hx he
        exact hdisj hid_in_b (he ▸ List.mem_map_of_mem Order.order_id hx)
      have hes : eraseById id hs = hs := eraseById_of_forall_ne id hs hs_ne
      rw [happ, hes]
      refine ⟨?_, h2, ?_, h4, ?_, keys_derase_nodup _ _ h6, ?_, ?_⟩
      · rw [h1, eraseById_ssort buyKey id hb hbnodup]
      · exact fun x hx => h3 x (mem_eraseById id hb x hx)
      · have hsub : List.Sublist ((eraseById id hb ++ hs).map Order.order_id)
            ((hb ++ hs).map Order.order_id) :=
          ((eraseById_sublist id hb).append (List.Sublist.refl hs)).map Order.order_id
        exact hsub.nodup h5
      · intro id' hid' x hx
        by_cases he : id' = id
        · subst he
          rcases List.mem_append.mp hx with hx' | hx'
          · exact eraseById_forall_ne id' hb hbnodup x hx'
          · exact hs_ne x hx'
        · rw [dlookup_derase_ne _ _ _ he] at hid'
          rcases List.mem_append.mp hx with hx' | hx'
          · exact h7 id' hid' x (List.mem_append.mpr (Or.inl (mem_eraseById id hb x hx')))
          · exact h7 id' hid' x (List.mem_append.mpr (Or.inr hx'))
      · intro id' o' hsome
        by_cases he : id' = id
        · subst he
          rw [dlookup_derase_self _ _ h6] at hsome
          exact absurd hsome (by simp)
        · rw [dlookup_derase_ne _ _ _ he] at hsome
          rcases h8 id' o' hsome with ⟨hids, hmem'⟩
          refine ⟨hids, ?_⟩
          rcases hmem' with hm | hm
          · exact Or.inl (mem_eraseById_of_ne id hb o' hm (by rw [hids]; exact he))
          · exact Or.inr hm
    · -- the indexed order rests on the SELL side
      have hsideo : o.side = Side.SELL := h4 o hos
      have hnb : o.side ≠ Side.BUY := by rw [hsideo]; intro h; cases h
      have happ : applyOp b (BookOp.remove id) =
          { b with sellOrders := eraseById id b.sellOrders,
                   orderIndex := derase b.orderIndex id } := by
        simp [applyOp, OrderBook.remove_order, hl, hnb]
      have hid_in_s : id ∈ hs.map Order.order_id :=
        hoid ▸ List.mem_map_of_mem Order.order_id hos
      have hb_ne : ∀ x ∈ hb, x.order_id ≠ id := by
        intro x hx he
        exact hdisj (he ▸ List.mem_map_of_mem Order.order_id hx) hid_in_s
      have heb : eraseById id hb = hb := eraseById_of_forall_ne id hb hb_ne
      rw [happ, heb]
      refine ⟨h1, ?_, h3, ?_, ?_, keys_derase_nodup _ _ h6, ?_, ?_⟩
      · rw [h2, eraseById_ssort sellKey id hs hsnodup]
      · exact fun x hx => h4 x (mem_eraseById id hs x hx)
      · have hsub : List.Sublist ((hb ++ eraseById id hs).map Order.order_id)
            ((hb ++ hs).map Order.order_id) :=
          ((List.Sublist.refl hb).append (eraseById_sublist id hs)).map Order.order_id
        exact hsub.nodup h5
      · intro id' hid' x hx
        by_cases he : id' = id
        · subst he
          rcases List.mem_append.mp hx with hx' | hx'
          · exact hb_ne x hx'
          · exact eraseById_forall_ne id' hs hsnodup x hx'
        · rw [dlookup_derase_ne _ _ _ he] at hid'
          rcases List.mem_append.mp hx with hx' | hx'
          · exact h7 id' hid' x (List.mem_append.mpr (Or.inl hx'))
          · exact h7 id' hid' x (List.mem_append.mpr (Or.inr (mem_eraseById id hs x hx')))
      · intro id' o' hsome
        by_cases he : id' = id
        · subst he
          rw [dlookup_derase_self _ _ h6] at hsome
          exact absurd hsome (by simp)
        · rw [dlookup_derase_ne _ _ _ he] at hsome
          rcases h8 id' o' hsome with ⟨hids, hmem'⟩
          refine ⟨hids, ?_⟩
          rcases hmem' with hm | hm
          · exact Or.inl hm
          · exact Or.inr (mem_eraseById_of_ne id hs o' hm (by rw [hids]; exact he))

end OMS

namespace OMS

/-- Keys of the order index after the amount rewrite. -/
theorem keys_idxSetAmount (l : List (Int × Order)) (id a : Int) :
    ((l.map (fun p => if p.1 = id then (p.1, { p.2 with amount := a }) else p)).map
      Prod.fst) = l.map Prod.fst :=
  keys_mapAt l id (fun o => { o with amount := a })

/-- Lookup in the order index after the amount rewrite. -/
theorem dlookup_idxSetAmount (l : List (Int × Order)) (id k a : Int) :
    dlookup (l.map (fun p => if p.1 = id then (p.1, { p.2 with amount := a }) else p)) k =
      if k = id then (dlookup l id).map (fun o => { o with amount := a }) else dlookup l k :=
  dlookup_mapAt l id k (fun o => { o with amount := a })

/-- One `update_order_amount` step preserves the C5 invariant. -/
theorem c5_step_set (b : OrderBook) (hb hs : List Order) (id a : Int)
    (hinv : C5Inv b hb hs) :
    C5Inv (applyOp b (BookOp.setAmount id a))
      (survStep Side.BUY hb (BookOp.setAmount id a))
      (survStep Side.SELL hs (BookOp.setAmount id a)) := by
  obtain ⟨h1, h2, h3, h4, h5, h6, h7, h8⟩ := hinv
  have hgb : survStep Side.BUY hb (BookOp.setAmount id a) = setAmountById id a hb := rfl
  have hgs : survStep Side.SELL hs (BookOp.setAmount id a) = setAmountById id a hs := rfl
  rw [hgb, hgs]
  cases hl : dlookup b.orderIndex id with
  | none =>
    have hne : ∀ x ∈ hb ++ hs, x.order_id ≠ id := h7 id hl
    have heb : setAmountById id a hb = hb :=
      setAmountById_of_forall_ne id a hb (fun x hx => hne x (List.mem_append.mpr (Or.inl hx)))
    have hes : setAmountById id a hs = hs :=
      setAmountById_of_forall_ne id a hs (fun x hx => hne x (List.mem_append.mpr (Or.inr hx)))
    have happ : applyOp b (BookOp.setAmount id a) = b := by
      simp [applyOp, OrderBook.update_order_amount, hl]
    rw [happ, heb, hes]
    exact ⟨h1, h2, h3, h4, h5, h6, h7, h8⟩
  | some o0 =>
    have happ : applyOp b (BookOp.setAmount id a) =
        { b with
            buyOrders := setAmountById id a b.buyOrders,
            sellOrders := setAmountById id a b.sellOrders,
            orderIndex :=
              b.orderIndex.map
                (fun p => if p.1 = id then (p.1, { p.2 with amount := a }) else p) } := by
      simp [applyOp, OrderBook.update_order_amount, hl]
    rw [happ]
    have hsides : ∀ (h : List Order) (x : Order), x ∈ setAmountById id a h →
        ∃ y ∈ h, x.side = y.side ∧ x.order_id = y.order_id := by
      intro h x hx
      rcases List.mem_map.mp hx with ⟨y, hy, hxy⟩
      refine ⟨y, hy, ?_⟩
      by_cases hyid : y.order_id = id
      · rw [if_pos hyid] at hxy
        rw [← hxy]
        exact ⟨rfl, rfl⟩
      · rw [if_neg hyid] at hxy
        rw [← hxy]
        exact ⟨rfl, rfl⟩
    refine ⟨?_, ?_, ?_, ?_, ?_, ?_, ?_, ?_⟩
    · rw [h1, setAmountById_ssort buyKey id a hb (fun x => rfl)]
    · rw [h2, setAmountById_ssort sellKey id a hs (fun x => rfl)]
    · intro x hx
      rcases hsides hb x hx with ⟨y, hy, hxy, _⟩
      rw [hxy]
      exact h3 y hy
    · intro x hx
      rcases hsides hs x hx with ⟨y, hy, hxy, _⟩
      rw [hxy]
      exact h4 y hy
    · have : (setAmountById id a hb ++ setAmountById id a hs).map Order.order_id =
          (hb ++ hs).map Order.order_id := by
        rw [List.map_append, List.map_append, setAmountById_map_ids, setAmountById_map_ids]
      rw [this]
      exact h5
    · rw [keys_idxSetAmount]
      exact h6
    · intro id' hid' x hx
      rw [dlookup_idxSetAmount] at hid'
      by_cases he : id' = id
      · rw [if_pos he, hl] at hid'
        exact absurd hid' (by simp)
      · rw [if_neg he] at hid'
        have hold : ∀ y ∈ hb ++ hs, y.order_id ≠ id' := h7 id' hid'
        rcases List.mem_append.mp hx with hx' | hx'
        · rcases hsides hb x hx' with ⟨y, hy, _, hids⟩
          rw [hids]
          exact hold y (List.mem_append.mpr (Or.inl hy))
        · rcases hsides hs x hx' with ⟨y, hy, _, hids⟩
          rw [hids]
          exact hold y (List.mem_append.mpr (Or.inr hy))
    · intro id' o' hsome
      rw [dlookup_idxSetAmount] at hsome
      by_cases he : id' = id
      · rw [if_pos he, hl] at hsome
        obtain rfl := Option.some.inj hsome
        rcases h8 id o0 hl with ⟨hids0, hmem0⟩
        have hfid : ({ o0 with amount := a } : Order).order_id = id' := by
          rw [he]; exact hids0
        refine ⟨hfid, ?_⟩
        rcases hmem0 with hm | hm
        · refine Or.inl ?_
          rw [setAmountById]
          refine List.mem_map.mpr ⟨o0, hm, ?_⟩
          rw [if_pos hids0]
        · refine Or.inr ?_
          rw [setAmountById]
          refine List.mem_map.mpr ⟨o0, hm, ?_⟩
          rw [if_pos hids0]
      · rw [if_neg he] at hsome
        rcases h8 id' o' hsome with ⟨hids, hmem⟩
        have hne : o'.order_id ≠ id := by rw [hids]; exact he
        refine ⟨hids, ?_⟩
        rcases hmem with hm | hm
        · refine Or.inl ?_
          rw [setAmountById]
          refine List.mem_map.mpr ⟨o', hm, ?_⟩
          rw [if_neg hne]
        · refine Or.inr ?_
          rw [setAmountById]
          refine List.mem_map.mpr ⟨o', hm, ?_⟩
          rw [if_neg hne]

end OMS

namespace OMS

/-- The C5 invariant holds for a fresh book with empty histories. -/
theorem c5_inv_empty (symbol : String) : C5Inv (OrderBook.empty symbol) [] [] := by
  refine ⟨rfl, rfl, ?_, ?_, ?_, ?_, ?_, ?_⟩
  · intro o ho; simp at ho
  · intro o ho; simp at ho
  · simp
  · simp [OrderBook.empty]
  · intro id _ o ho; simp at ho
  · intro id o hsome
    simp [OrderBook.empty, dlookup] at hsome

/-- Running a valid operation sequence preserves the C5 invariant. -/
theorem c5_run (ops : List BookOp) :
    ∀ (b : OrderBook) (hb hs : List Order), C5Inv b hb hs →
      validOpsFrom b ops = true →
      C5Inv (ops.foldl applyOp b) (ops.foldl (survStep Side.BUY) hb)
        (ops.foldl (survStep Side.SELL) hs) := by
  induction ops with
  | nil => intro b hb hs hinv _; simpa using hinv
  | cons op rest ih =>
    intro b hb hs hinv hval
    rw [validOpsFrom, Bool.and_eq_true] at hval
    have hstep : C5Inv (applyOp b op)
        (survStep Side.BUY hb op) (survStep Side.SELL hs op) := by
      cases op with
      | add o => exact c5_step_add b hb hs o hinv hval.1
      | remove id => exact c5_step_remove b hb hs id hinv
      | setAmount id a => exact c5_step_set b hb hs id a hinv
    simpa using ih (applyOp b op) _ _ hstep hval.2

/-- C5: sort and FIFO invariant.  For every sequence of `OrderBook`
operations (`add_order` with fresh ids per the §4.1 caller contract,
`remove_order`, `update_order_amount`), `get_orders(BUY)` is exactly the
stable price sort (ascending, insertion order preserved among equal prices)
of the surviving BUY orders in insertion order, `get_orders(SELL)` the
stable descending one, and hence the BUY view is non-decreasing and the
SELL view non-increasing in price with FIFO at each price level. -/
theorem c5_sort_and_fifo (symbol : String) (ops : List BookOp)
    (hval : validOpsFrom (OrderBook.empty symbol) ops = true) :
    (runOps symbol ops).get_orders Side.BUY = ssort buyKey (survivors Side.BUY ops) ∧
    (runOps symbol ops).get_orders Side.SELL = ssort sellKey (survivors Side.SELL ops) ∧
    ((runOps symbol ops).get_orders Side.BUY).Pairwise (fun x y => x.price ≤ y.price) ∧
    ((runOps symbol ops).get_orders Side.SELL).Pairwise (fun x y => y.price ≤ x.price) := by
  obtain ⟨h1, h2, _⟩ := c5_run ops (OrderBook.empty symbol) [] [] (c5_inv_empty symbol) hval
  have hbuy : (runOps symbol ops).get_orders Side.BUY =
      ssort buyKey (survivors Side.BUY ops) := by
    rw [OrderBook.get_orders, if_pos rfl, runOps, survivors]
    exact h1
  have hsell : (runOps symbol ops).get_orders Side.SELL =
      ssort sellKey (survivors Side.SELL ops) := by
    rw [OrderBook.get_orders, if_neg (by intro h; cases h), runOps, survivors]
    exact h2
  refine ⟨hbuy, hsell, ?_, ?_⟩
  · rw [hbuy]
    exact (ssort_sorted buyKey _).imp (fun h => h)
  · rw [hsell]
    refine (ssort_sorted sellKey _).imp ?_
    intro x y h
    simp only [sellKey] at h
    omega

/-- Witness for C5 on a concrete operation sequence exercising all three
operations, equal prices (FIFO), and both sides. -/
theorem c5_witness :
    (runOps "T" [BookOp.add ⟨1, "T", Side.BUY, 10, 20⟩,
        BookOp.add ⟨2, "T", Side.BUY, 5, 20⟩,
        BookOp.add ⟨3, "T", Side.SELL, 7, 30⟩,
        BookOp.setAmount 1 4, BookOp.remove 3]).get_orders Side.BUY =
      ssort buyKey (survivors Side.BUY [BookOp.add ⟨1, "T", Side.BUY, 10, 20⟩,
        BookOp.add ⟨2, "T", Side.BUY, 5, 20⟩,
        BookOp.add ⟨3, "T", Side.SELL, 7, 30⟩,
        BookOp.setAmount 1 4, BookOp.remove 3]) ∧
    (runOps "T" [BookOp.add ⟨1, "T", Side.BUY, 10, 20⟩,
        BookOp.add ⟨2, "T", Side.BUY, 5, 20⟩,
        BookOp.add ⟨3, "T", Side.SELL, 7, 30⟩,
        BookOp.setAmount 1 4, BookOp.remove 3]).get_orders Side.SELL =
      ssort sellKey (survivors Side.SELL [BookOp.add ⟨1, "T", Side.BUY, 10, 20⟩,
        BookOp.add ⟨2, "T", Side.BUY, 5, 20⟩,
        BookOp.add ⟨3, "T", Side.SELL, 7, 30⟩,
        BookOp.setAmount 1 4, BookOp.remove 3]) ∧
    ((runOps "T" [BookOp.add ⟨1, "T", Side.BUY, 10, 20⟩,
        BookOp.add ⟨2, "T", Side.BUY, 5, 20⟩,
        BookOp.add ⟨3, "T", Side.SELL, 7, 30⟩,
        BookOp.setAmount 1 4, BookOp.remove 3]).get_orders Side.BUY).Pairwise
      (fun x y => x.price ≤ y.price) ∧
    ((runOps "T" [BookOp.add ⟨1, "T", Side.BUY, 10, 20⟩,
        BookOp.add ⟨2, "T", Side.BUY, 5, 20⟩,
        BookOp.add ⟨3, "T", Side.SELL, 7, 30⟩,
        BookOp.setAmount 1 4, BookOp.remove 3]).get_orders Side.SELL).Pairwise
      (fun x y => y.price ≤ x.price) :=
  c5_sort_and_fifo "T" [BookOp.add ⟨1, "T", Side.BUY, 10, 20⟩,
    BookOp.add ⟨2, "T", Side.BUY, 5, 20⟩,
    BookOp.add ⟨3, "T", Side.SELL, 7, 30⟩,
    BookOp.setAmount 1 4, BookOp.remove 3] (by decide)

end OMS

namespace OMS

/-- A fresh book has only positive resting amounts (vacuously). -/
theorem bookPos_empty (symbol : String) : BookPos (OrderBook.empty symbol) := by
  refine ⟨?_, ?_, ?_⟩ <;> intro x hx <;> simp [OrderBook.empty] at hx

/-- Adding a positive-amount order keeps resting amounts positive. -/
theorem bookPos_add (b : OrderBook) (o : Order) (hb : BookPos b) (ho : 0 < o.amount) :
    BookPos (b.add_order o) := by
  obtain ⟨h1, h2, h3⟩ := hb
  by_cases hside : o.side = Side.BUY
  · rw [OrderBook.add_order, if_pos hside]
    refine ⟨?_, h2, ?_⟩
    · intro x hx
      rcases (mem_insertSorted buyKey o x b.buyOrders).mp hx with rfl | hx'
      · exact ho
      · exact h1 x hx'
    · intro p hp
      rcases mem_dset b.orderIndex o.order_id o p hp with hp' | rfl
      · exact h3 p hp'
      · exact ho
  · rw [OrderBook.add_order, if_neg hside]
    refine ⟨h1, ?_, ?_⟩
    · intro x hx
      rcases (mem_insertSorted sellKey o x b.sellOrders).mp hx with rfl | hx'
      · exact ho
      · exact h2 x hx'
    · intro p hp
      rcases mem_dset b.orderIndex o.order_id o p hp with hp' | rfl
      · exact h3 p hp'
      · exact ho

/-- Removal keeps resting amounts positive. -/
theorem bookPos_remove (b : OrderBook) (id : Int) (hb : BookPos b) :
    BookPos (b.remove_order id).2 := by
  obtain ⟨h1, h2, h3⟩ := hb
  cases hl : dlookup b.orderIndex id with
  | none => simpa [OrderBook.remove_order, hl] using ⟨h1, h2, h3⟩
  | some o =>
    by_cases hside : o.side = Side.BUY
    · simp only [OrderBook.remove_order, hl, if_pos hside]
      exact ⟨fun x hx => h1 x (mem_eraseById id b.buyOrders x hx), h2,
        fun p hp => h3 p (mem_derase b.orderIndex id p hp)⟩
    · simp only [OrderBook.remove_order, hl, if_neg hside]
      exact ⟨h1, fun x hx => h2 x (mem_eraseById id b.sellOrders x hx),
        fun p hp => h3 p (mem_derase b.orderIndex id p hp)⟩

/-- An amount update to a positive value keeps resting amounts positive. -/
theorem bookPos_update (b : OrderBook) (id a : Int) (hb : BookPos b) (ha : 0 < a) :
    BookPos (b.update_order_amount id a).2 := by
  obtain ⟨h1, h2, h3⟩ := hb
  cases hl : dlookup b.orderIndex id with
  | none => simpa [OrderBook.update_order_amount, hl] using ⟨h1, h2, h3⟩
  | some o0 =>
    simp only [OrderBook.update_order_amount, hl]
    refine ⟨?_, ?_, ?_⟩
    · intro x hx
      rcases List.mem_map.mp hx with ⟨y, hy, hxy⟩
      by_cases hyid : y.order_id = id
      · rw [if_pos hyid] at hxy
        rw [← hxy]
        exact ha
      · rw [if_neg hyid] at hxy
        rw [← hxy]
        exact h1 y hy
    · intro x hx
      rcases List.mem_map.mp hx with ⟨y, hy, hxy⟩
      by_cases hyid : y.order_id = id
      · rw [if_pos hyid] at hxy
        rw [← hxy]
        exact ha
      · rw [if_neg hyid] at hxy
        rw [← hxy]
        exact h2 y hy
    · intro p hp
      rcases List.mem_map.mp hp with ⟨q, hq, hpq⟩
      by_cases hqid : q.1 = id
      · rw [if_pos hqid] at hpq
        rw [← hpq]
        exact ha
      · rw [if_neg hqid] at hpq
        rw [← hpq]
        exact h3 q hq

/-- The executor's loop keeps resting amounts positive: it removes an order
or writes the strictly positive remainder. -/
theorem bookPos_executeLoop (orders : List Order) :
    ∀ (b : OrderBook) (fac : List (Int × Order)) (remaining : Int), BookPos b →
      BookPos (executeLoop b fac orders remaining).book := by
  induction orders with
  | nil => intro b fac r hb; simpa [executeLoop] using hb
  | cons o rest ih =>
    intro b fac r hb
    by_cases hr : r ≤ 0
    · simpa [executeLoop, hr] using hb
    · simp only [executeLoop, if_neg hr]
      by_cases hz : o.amount - min o.amount r = 0
      · simp only [if_pos hz]
        exact ih _ _ _ (bookPos_remove b o.order_id hb)
      · simp only [if_neg hz]
        have ha : 0 < o.amount - min o.amount r := by
          have hle : min o.amount r ≤ o.amount := min_le_left _ _
          omega
        exact ih _ _ _ (bookPos_update b o.order_id _ hb ha)

/-- Books produced by `_get_or_create_order_book` come from the state or are
fresh and empty. -/
theorem getOrCreate_books_mem (s : OMState) (symbol : String) (p : String × OrderBook)
    (hp : p ∈ (getOrCreateOrderBook s symbol).2) :
    p ∈ s.order_books ∨ p = (symbol, OrderBook.empty symbol) := by
  cases hl : dlookup s.order_books symbol with
  | some b =>
    simp only [getOrCreateOrderBook, hl] at hp
    exact Or.inl hp
  | none =>
    simp only [getOrCreateOrderBook, hl] at hp
    exact mem_dset _ _ _ p hp

/-- The looked-up (or fresh) book of a positive state is positive. -/
theorem getOrCreate_book_pos (s : OMState) (symbol : String) (hpos : RestingPos s) :
    BookPos (getOrCreateOrderBook s symbol).1 := by
  cases hl : dlookup s.order_books symbol with
  | some b =>
    simp only [getOrCreateOrderBook, hl]
    exact hpos (symbol, b) (dlookup_mem _ _ _ hl)
  | none =>
    simp only [getOrCreateOrderBook, hl]
    exact bookPos_empty symbol

/-- Every reachable state (validated inputs per §6) has only positive
resting amounts in every book. -/
theorem sysReach_restingPos (s : OMState) (h : SysReach s) : RestingPos s := by
  induction h with
  | init => intro p hp; simp [OMState.empty] at hp
  | add s id symbol side amount price hre hamt hpr ih =>
    by_cases hdup : (dlookup s.orders id).isSome = true
    · simpa [OMState.add_order, hdup] using ih
    · intro p hp
      simp only [OMState.add_order, hdup, if_neg, Bool.false_eq_true] at hp
      rcases mem_dset _ _ _ p hp with hp' | rfl
      · rcases getOrCreate_books_mem s symbol p hp' with hp'' | rfl
        · exact ih p hp''
        · exact bookPos_empty symbol
      · refine bookPos_add _ _ (getOrCreate_book_pos s symbol ih) ?_
        show (0 : Int) < amount
        omega
  | remove s id hre ih =>
    cases hl : dlookup s.orders id with
    | none => simpa [OMState.remove_order, hl] using ih
    | some o =>
      intro p hp
      simp only [OMState.remove_order, hl] at hp
      cases hb : dlookup s.order_books o.symbol with
      | none =>
        simp only [hb] at hp
        exact ih p hp
      | some b =>
        simp only [hb] at hp
        rcases mem_dset _ _ _ p hp with hp' | rfl
        · exact ih p hp'
        · exact bookPos_remove b id (ih (o.symbol, b) (dlookup_mem _ _ _ hb))
  | calcPrice s symbol side amount hre hamt ih =>
    intro p hp
    simp only [OMState.calculate_price] at hp
    rcases getOrCreate_books_mem s symbol p hp with hp' | rfl
    · exact ih p hp'
    · exact bookPos_empty symbol
  | trade s symbol side amount hre hamt ih =>
    intro p hp
    simp only [OMState.place_trade] at hp
    rcases mem_dset _ _ _ p hp with hp' | rfl
    · rcases getOrCreate_books_mem s symbol p hp' with hp'' | rfl
      · exact ih p hp''
      · exact bookPos_empty symbol
    · exact bookPos_executeLoop _ _ _ _ (getOrCreate_book_pos s symbol ih)

end OMS

namespace OMS

/-- Shape of `remove_order` when the indexed order is a BUY. -/
theorem remove_order_buy (b : OrderBook) (id : Int) (o : Order)
    (hl : dlookup b.orderIndex id = some o) (hside : o.side = Side.BUY) :
    (b.remove_order id).2 =
      { b with buyOrders := eraseById id b.buyOrders,
               orderIndex := derase b.orderIndex id } := by
  simp [OrderBook.remove_order, hl, hside]

/-- Shape of `remove_order` when the indexed order is a SELL. -/
theorem remove_order_sell (b : OrderBook) (id : Int) (o : Order)
    (hl : dlookup b.orderIndex id = some o) (hside : o.side = Side.SELL) :
    (b.remove_order id).2 =
      { b with sellOrders := eraseById id b.sellOrders,
               orderIndex := derase b.orderIndex id } := by
  have hnb : ¬ o.side = Side.BUY := by rw [hside]; intro h; cases h
  simp [OrderBook.remove_order, hl, hnb]

/-- Shape of `update_order_amount` when the id is indexed. -/
theorem update_order_eq (b : OrderBook) (id a : Int) (o0 : Order)
    (hl : dlookup b.orderIndex id = some o0) :
    (b.update_order_amount id a).2 =
      { b with buyOrders := setAmountById id a b.buyOrders,
               sellOrders := setAmountById id a b.sellOrders,
               orderIndex := b.orderIndex.map
                 (fun p => if p.1 = id then (p.1, { p.2 with amount := a }) else p) } := by
  simp [OrderBook.update_order_amount, hl]

/-- The id parts of a well-formed book. -/
theorem wf_split (b : OrderBook) (hwf : WFBook b) :
    (b.buyOrders.map Order.order_id).Nodup ∧
    (b.sellOrders.map Order.order_id).Nodup ∧
    (b.buyOrders.map Order.order_id).Disjoint (b.sellOrders.map Order.order_id) := by
  obtain ⟨w1, _⟩ := hwf
  rw [List.map_append] at w1
  exact List.nodup_append.mp w1

/-- In a well-formed book, the indexed order of a BUY id rests on the BUY
side, and symmetrically. -/
theorem wf_indexed_mem (b : OrderBook) (id : Int) (o : Order) (hwf : WFBook b)
    (hl : dlookup b.orderIndex id = some o) :
    o.order_id = id ∧
      ((o.side = Side.BUY ∧ o ∈ b.buyOrders) ∨ (o.side = Side.SELL ∧ o ∈ b.sellOrders)) := by
  obtain ⟨_, _, w3, w4, w5⟩ := hwf
  have hp := w5 (id, o) (dlookup_mem _ _ _ hl)
  refine ⟨hp.1, ?_⟩
  rcases hp.2 with hm | hm
  · exact Or.inl ⟨(w3 o hm).1, hm⟩
  · exact Or.inr ⟨(w4 o hm).1, hm⟩

/-- `remove_order` preserves well-formedness. -/
theorem wf_remove (b : OrderBook) (id : Int) (hwf : WFBook b) :
    WFBook (b.remove_order id).2 := by
  cases hl : dlookup b.orderIndex id with
  | none => simpa [OrderBook.remove_order, hl] using hwf
  | some o =>
    obtain ⟨hoid, hcase⟩ := wf_indexed_mem b id o hwf hl
    obtain ⟨w1, w2, w3, w4, w5⟩ := hwf
    obtain ⟨hbn, hsn, hdisj⟩ := wf_split b ⟨w1, w2, w3, w4, w5⟩
    rcases hcase with ⟨hside, hmem⟩ | ⟨hside, hmem⟩
    · rw [remove_order_buy b id o hl hside]
      have hid_in_b : id ∈ b.buyOrders.map Order.order_id :=
        hoid ▸ List.mem_map_of_mem Order.order_id hmem
      have hsell_ne : ∀ x ∈ b.sellOrders, x.order_id ≠ id := by
        intro x hx he
        exact hdisj hid_in_b (he ▸ List.mem_map_of_mem Order.order_id hx)
      refine ⟨?_, keys_derase_nodup _ _ w2, ?_, ?_, ?_⟩
      · have hsub : List.Sublist
            ((eraseById id b.buyOrders ++ b.sellOrders).map Order.order_id)
            ((b.buyOrders ++ b.sellOrders).map Order.order_id) :=
          ((eraseById_sublist id b.buyOrders).append
            (List.Sublist.refl b.sellOrders)).map Order.order_id
        exact hsub.nodup w1
      · intro x hx
        have hx' := mem_eraseById id b.buyOrders x hx
        refine ⟨(w3 x hx').1, ?_⟩
        rw [dlookup_derase_ne _ _ _ (eraseById_forall_ne id b.buyOrders hbn x hx)]
        exact (w3 x hx').2
      · intro x hx
        refine ⟨(w4 x hx).1, ?_⟩
        rw [dlookup_derase_ne _ _ _ (hsell_ne x hx)]
        exact (w4 x hx).2
      · intro p hp
        have hp' := mem_derase b.orderIndex id p hp
        have hne : p.1 ≠ id := keys_derase_ne b.orderIndex id w2 p hp
        refine ⟨(w5 p hp').1, ?_⟩
        rcases (w5 p hp').2 with hm | hm
        · exact Or.inl (mem_eraseById_of_ne id b.buyOrders p.2 hm
            (by rw [(w5 p hp').1]; exact hne))
        · exact Or.inr hm
    · rw [remove_order_sell b id o hl hside]
      have hid_in_s : id ∈ b.sellOrders.map Order.order_id :=
        hoid ▸ List.mem_map_of_mem Order.order_id hmem
      have hbuy_ne : ∀ x ∈ b.buyOrders, x.order_id ≠ id := by
        intro x hx he
        exact hdisj (he ▸ List.mem_map_of_mem Order.order_id hx) hid_in_s
      refine ⟨?_, keys_derase_nodup _ _ w2, ?_, ?_, ?_⟩
      · have hsub : List.Sublist
            ((b.buyOrders ++ eraseById id b.sellOrders).map Order.order_id)
            ((b.buyOrders ++ b.sellOrders).map Order.order_id) :=
          ((List.Sublist.refl b.buyOrders).append
            (eraseById_sublist id b.sellOrders)).map Order.order_id
        exact hsub.nodup w1
      · intro x hx
        refine ⟨(w3 x hx).1, ?_⟩
        rw [dlookup_derase_ne _ _ _ (hbuy_ne x hx)]
        exact (w3 x hx).2
      · intro x hx
        have hx' := mem_eraseById id b.sellOrders x hx
        refine ⟨(w4 x hx').1, ?_⟩
        rw [dlookup_derase_ne _ _ _ (eraseById_forall_ne id b.sellOrders hsn x hx)]
        exact (w4 x hx').2
      · intro p hp
        have hp' := mem_derase b.orderIndex id p hp
        have hne : p.1 ≠ id := keys_derase_ne b.orderIndex id w2 p hp
        refine ⟨(w5 p hp').1, ?_⟩
        rcases (w5 p hp').2 with hm | hm
        · exact Or.inl hm
        · exact Or.inr (mem_eraseById_of_ne id b.sellOrders p.2 hm
            (by rw [(w5 p hp').1]; exact hne))

/-- `update_order_amount` preserves well-formedness. -/
theorem wf_update (b : OrderBook) (id a : Int) (hwf : WFBook b) :
    WFBook (b.update_order_amount id a).2 := by
  cases hl : dlookup b.orderIndex id with
  | none => simpa [OrderBook.update_order_amount, hl] using hwf
  | some o0 =>
    obtain ⟨w1, w2, w3, w4, w5⟩ := hwf
    rw [update_order_eq b id a o0 hl]
    refine ⟨?_, ?_, ?_, ?_, ?_⟩
    · have he : (setAmountById id a b.buyOrders ++ setAmountById id a b.sellOrders).map
          Order.order_id = (b.buyOrders ++ b.sellOrders).map Order.order_id := by
        rw [List.map_append, List.map_append, setAmountById_map_ids, setAmountById_map_ids]
      rw [he]
      exact w1
    · rw [keys_idxSetAmount]
      exact w2
    · intro x hx
      rcases List.mem_map.mp hx with ⟨y, hy, hxy⟩
      by_cases hyid : y.order_id = id
      · rw [if_pos hyid] at hxy
        subst hxy
        refine ⟨(w3 y hy).1, ?_⟩
        have hly : dlookup b.orderIndex id = some y := by
          rw [← hyid]; exact (w3 y hy).2
        rw [dlookup_idxSetAmount, if_pos hyid, hly]
        rfl
      · rw [if_neg hyid] at hxy
        subst hxy
        refine ⟨(w3 y hy).1, ?_⟩
        rw [dlookup_idxSetAmount, if_neg hyid]
        exact (w3 y hy).2
    · intro x hx
      rcases List.mem_map.mp hx with ⟨y, hy, hxy⟩
      by_cases hyid : y.order_id = id
      · rw [if_pos hyid] at hxy
        subst hxy
        refine ⟨(w4 y hy).1, ?_⟩
        have hly : dlookup b.orderIndex id = some y := by
          rw [← hyid]; exact (w4 y hy).2
        rw [dlookup_idxSetAmount, if_pos hyid, hly]
        rfl
      · rw [if_neg hyid] at hxy
        subst hxy
        refine ⟨(w4 y hy).1, ?_⟩
        rw [dlookup_idxSetAmount, if_neg hyid]
        exact (w4 y hy).2
    · intro p hp
      rcases List.mem_map.mp hp with ⟨q, hq, hpq⟩
      by_cases hqid : q.1 = id
      · rw [if_pos hqid] at hpq
        subst hpq
        refine ⟨(w5 q hq).1, ?_⟩
        rcases (w5 q hq).2 with hm | hm
        · refine Or.inl ?_
          rw [setAmountById]
          exact List.mem_map.mpr ⟨q.2, hm, by rw [if_pos ((w5 q hq).1.trans hqid)]⟩
        · refine Or.inr ?_
          rw [setAmountById]
          exact List.mem_map.mpr ⟨q.2, hm, by rw [if_pos ((w5 q hq).1.trans hqid)]⟩
      · rw [if_neg hqid] at hpq
        subst hpq
        refine ⟨(w5 q hq).1, ?_⟩
        have hne : q.2.order_id ≠ id := by rw [(w5 q hq).1]; exact hqid
        rcases (w5 q hq).2 with hm | hm
        · refine Or.inl ?_
          rw [setAmountById]
          exact List.mem_map.mpr ⟨q.2, hm, by rw [if_neg hne]⟩
        · refine Or.inr ?_
          rw [setAmountById]
          exact List.mem_map.mpr ⟨q.2, hm, by rw [if_neg hne]⟩

end OMS

namespace OMS

/-- An absent key is still absent after any deletion. -/
theorem dlookup_derase_none {κ α : Type} [DecidableEq κ] (l : List (κ × α)) (k k' : κ)
    (h : dlookup l k = none) : dlookup (derase l k') k = none := by
  induction l with
  | nil => exact h
  | cons p rest ih =>
    rcases eq_or_ne p.1 k with hp | hp
    · rw [dlookup, if_pos hp] at h
      exact absurd h (by simp)
    · rw [dlookup, if_neg hp] at h
      by_cases hq : p.1 = k'
      · rw [derase, if_pos hq]
        exact h
      · rw [derase, if_neg hq, dlookup, if_neg hp]
        exact ih h

/-- Removing a fully indexed id leaves it nowhere in a well-formed book. -/
theorem remove_kills (b : OrderBook) (id : Int) (o : Order) (hwf : WFBook b)
    (hl : dlookup b.orderIndex id = some o) :
    NotInBook (b.remove_order id).2 id := by
  obtain ⟨hoid, hcase⟩ := wf_indexed_mem b id o hwf hl
  obtain ⟨w1, w2, w3, w4, w5⟩ := hwf
  obtain ⟨hbn, hsn, hdisj⟩ := wf_split b ⟨w1, w2, w3, w4, w5⟩
  rcases hcase with ⟨hside, hmem⟩ | ⟨hside, hmem⟩
  · rw [remove_order_buy b id o hl hside]
    have hid_in_b : id ∈ b.buyOrders.map Order.order_id :=
      hoid ▸ List.mem_map_of_mem Order.order_id hmem
    refine ⟨?_, ?_, ?_⟩
    · exact dlookup_derase_self b.orderIndex id w2
    · exact eraseById_forall_ne id b.buyOrders hbn
    · intro x hx he
      exact hdisj hid_in_b (he ▸ List.mem_map_of_mem Order.order_id hx)
  · rw [remove_order_sell b id o hl hside]
    have hid_in_s : id ∈ b.sellOrders.map Order.order_id :=
      hoid ▸ List.mem_map_of_mem Order.order_id hmem
    refine ⟨?_, ?_, ?_⟩
    · exact dlookup_derase_self b.orderIndex id w2
    · intro x hx he
      exact hdisj (he ▸ List.mem_map_of_mem Order.order_id hx) hid_in_s
    · exact eraseById_forall_ne id b.sellOrders hsn

/-- An absent id stays absent through a removal of any id. -/
theorem notInBook_remove (b : OrderBook) (id id' : Int) (h : NotInBook b id) :
    NotInBook (b.remove_order id').2 id := by
  obtain ⟨h1, h2, h3⟩ := h
  cases hl : dlookup b.orderIndex id' with
  | none => simpa [OrderBook.remove_order, hl] using ⟨h1, h2, h3⟩
  | some o =>
    by_cases hside : o.side = Side.BUY
    · rw [remove_order_buy b id' o hl hside]
      exact ⟨dlookup_derase_none _ _ _ h1,
        fun x hx => h2 x (mem_eraseById id' b.buyOrders x hx), h3⟩
    · have hside' : o.side = Side.SELL := by cases hs : o.side <;> simp_all
      rw [remove_order_sell b id' o hl hside']
      exact ⟨dlookup_derase_none _ _ _ h1, h2,
        fun x hx => h3 x (mem_eraseById id' b.sellOrders x hx)⟩

/-- An absent id stays absent through any amount update. -/
theorem notInBook_update (b : OrderBook) (id id' a : Int) (h : NotInBook b id) :
    NotInBook (b.update_order_amount id' a).2 id := by
  obtain ⟨h1, h2, h3⟩ := h
  cases hl : dlookup b.orderIndex id' with
  | none => simpa [OrderBook.update_order_amount, hl] using ⟨h1, h2, h3⟩
  | some o0 =>
    have hne : id ≠ id' := by
      intro he
      rw [OrderBook.get_order, he, hl] at h1
      exact absurd h1 (by simp)
    rw [update_order_eq b id' a o0 hl]
    refine ⟨?_, ?_, ?_⟩
    · show dlookup _ id = none
      rw [dlookup_idxSetAmount, if_neg hne]
      exact h1
    · intro x hx
      rcases List.mem_map.mp hx with ⟨y, hy, hxy⟩
      by_cases hyid : y.order_id = id'
      · rw [if_pos hyid] at hxy
        subst hxy
        show y.order_id ≠ id
        exact h2 y hy
      · rw [if_neg hyid] at hxy
        subst hxy
        exact h2 y hy
    · intro x hx
      rcases List.mem_map.mp hx with ⟨y, hy, hxy⟩
      by_cases hyid : y.order_id = id'
      · rw [if_pos hyid] at hxy
        subst hxy
        show y.order_id ≠ id
        exact h3 y hy
      · rw [if_neg hyid] at hxy
        subst hxy
        exact h3 y hy

/-- An absent id stays absent through the executor's whole loop. -/
theorem notInBook_executeLoop (id : Int) (orders : List Order) :
    ∀ (b : OrderBook) (fac : List (Int × Order)) (remaining : Int),
      NotInBook b id → NotInBook (executeLoop b fac orders remaining).book id := by
  induction orders with
  | nil => intro b fac r h; simpa [executeLoop] using h
  | cons o rest ih =>
    intro b fac r h
    by_cases hr : r ≤ 0
    · simpa [executeLoop, hr] using h
    · simp only [executeLoop, if_neg hr]
      by_cases hz : o.amount - min o.amount r = 0
      · simp only [if_pos hz]
        exact ih _ _ _ (notInBook_remove b id o.order_id h)
      · simp only [if_neg hz]
        exact ih _ _ _ (notInBook_update b id o.order_id _ h)

/-- Every recorded fill's id comes from the snapshot. -/
theorem fillsSpec_ids (orders : List Order) :
    ∀ (remaining : Int) (f : OrderFill), f ∈ fillsSpec orders remaining →
      f.order_id ∈ orders.map Order.order_id := by
  induction orders with
  | nil => intro r f hf; simp [fillsSpec] at hf
  | cons o rest ih =>
    intro r f hf
    by_cases hr : r ≤ 0
    · rw [fillsSpec, if_pos hr] at hf
      simp at hf
    · rw [fillsSpec, if_neg hr] at hf
      rcases List.mem_cons.mp hf with rfl | hf'
      · exact List.mem_map.mpr ⟨o, List.mem_cons_self o rest, rfl⟩
      · exact List.mem_cons_of_mem _ (ih _ f hf')

end OMS

namespace OMS

/-- The executor's loop: well-formedness is preserved and a fill that
consumed an order's whole (snapshot) amount leaves that id nowhere in the
resulting book. -/
theorem execLoop_exhaust (orders : List Order) :
    ∀ (b : OrderBook) (fac : List (Int × Order)) (remaining : Int),
      WFBook b →
      (∀ o ∈ orders, dlookup b.orderIndex o.order_id = some o) →
      (orders.map Order.order_id).Nodup →
      WFBook (executeLoop b fac orders remaining).book ∧
      (∀ f ∈ (executeLoop b fac orders remaining).fills, ∀ o ∈ orders,
        f.order_id = o.order_id → f.filled_amount = o.amount →
        NotInBook (executeLoop b fac orders remaining).book f.order_id) := by
  induction orders with
  | nil =>
    intro b fac r hwf _ _
    exact ⟨by simpa [executeLoop] using hwf, by simp [executeLoop]⟩
  | cons o rest ih =>
    intro b fac r hwf hval hnodup
    by_cases hr : r ≤ 0
    · refine ⟨by simpa [executeLoop, hr] using hwf, ?_⟩
      intro f hf
      simp [executeLoop, hr] at hf
    · simp only [executeLoop, if_neg hr]
      simp only [List.map_cons, List.nodup_cons] at hnodup
      have hl0 : dlookup b.orderIndex o.order_id = some o :=
        hval o (List.mem_cons_self o rest)
      by_cases hz : o.amount - min o.amount r = 0
      · simp only [if_pos hz]
        have hwf1 : WFBook (b.remove_order o.order_id).2 := wf_remove b o.order_id hwf
        have hidx1 : ((b.remove_order o.order_id).2).orderIndex =
            derase b.orderIndex o.order_id := by
          rcases (wf_indexed_mem b o.order_id o hwf hl0).2 with ⟨hside, _⟩ | ⟨hside, _⟩
          · rw [remove_order_buy b o.order_id o hl0 hside]
          · rw [remove_order_sell b o.order_id o hl0 hside]
        have hval1 : ∀ o' ∈ rest,
            dlookup ((b.remove_order o.order_id).2).orderIndex o'.order_id = some o' := by
          intro o' ho'
          have hne : o'.order_id ≠ o.order_id := by
            intro he
            exact hnodup.1 (he ▸ List.mem_map_of_mem Order.order_id ho')
          rw [hidx1, dlookup_derase_ne _ _ _ hne]
          exact hval o' (List.mem_cons_of_mem _ ho')
        obtain ⟨ihwf, ihfills⟩ :=
          ih (b.remove_order o.order_id).2 fac (r - min o.amount r) hwf1 hval1 hnodup.2
        refine ⟨ihwf, ?_⟩
        intro f hf o' ho' hfid hfamt
        rcases List.mem_cons.mp hf with hfe | hf'
        · rcases List.mem_cons.mp ho' with hoe | ho''
          · rw [hfe]
            exact notInBook_executeLoop o.order_id rest _ fac _
              (remove_kills b o.order_id o hwf hl0)
          · exfalso
            rw [hfe] at hfid
            have hoo : o.order_id = o'.order_id := hfid
            exact hnodup.1 (hoo ▸ List.mem_map_of_mem Order.order_id ho'')
        · rcases List.mem_cons.mp ho' with hoe | ho''
          · exfalso
            have hmem : f.order_id ∈ rest.map Order.order_id := by
              rw [executeLoop_fills] at hf'
              exact fillsSpec_ids rest _ f hf'
            rw [hfid, hoe] at hmem
            exact hnodup.1 hmem
          · exact ihfills f hf' o' ho'' hfid hfamt
      · simp only [if_neg hz]
        have hwf1 : WFBook (b.update_order_amount o.order_id (o.amount - min o.amount r)).2 :=
          wf_update b o.order_id _ hwf
        have hval1 : ∀ o' ∈ rest,
            dlookup ((b.update_order_amount o.order_id
              (o.amount - min o.amount r)).2).orderIndex o'.order_id = some o' := by
          intro o' ho'
          have hne : o'.order_id ≠ o.order_id := by
            intro he
            exact hnodup.1 (he ▸ List.mem_map_of_mem Order.order_id ho')
          rw [update_order_eq b o.order_id _ o hl0]
          show dlookup _ o'.order_id = some o'
          rw [dlookup_idxSetAmount, if_neg hne]
          exact hval o' (List.mem_cons_of_mem _ ho')
        obtain ⟨ihwf, ihfills⟩ :=
          ih (b.update_order_amount o.order_id (o.amount - min o.amount r)).2
            (fac.map (fun p => if p.1 = o.order_id then
              (p.1, { p.2 with amount := o.amount - min o.amount r }) else p))
            (r - min o.amount r) hwf1 hval1 hnodup.2
        refine ⟨ihwf, ?_⟩
        intro f hf o' ho' hfid hfamt
        rcases List.mem_cons.mp hf with hfe | hf'
        · rcases List.mem_cons.mp ho' with hoe | ho''
          · exfalso
            rw [hfe, hoe] at hfamt
            have hfa : min o.amount r = o.amount := hfamt
            omega
          · exfalso
            rw [hfe] at hfid
            have hoo : o.order_id = o'.order_id := hfid
            exact hnodup.1 (hoo ▸ List.mem_map_of_mem Order.order_id ho'')
        · rcases List.mem_cons.mp ho' with hoe | ho''
          · exfalso
            have hmem : f.order_id ∈ rest.map Order.order_id := by
              rw [executeLoop_fills] at hf'
              exact fillsSpec_ids rest _ f hf'
            rw [hfid, hoe] at hmem
            exact hnodup.1 hmem
          · exact ihfills f hf' o' ho'' hfid hfamt

end OMS

namespace OMS

/-- C6: zero-amount orders vanish.  (i) Over every state reachable by the
public operations with the §6-validated inputs, every resting order in every
book has amount strictly greater than 0 — no operation leaves a zero or
negative amount resting.  (ii) For every well-formed book, a trade fill that
exactly exhausts a resting order's amount leaves that order id absent from
the book within the same `execute` call: `get_order` returns not-found and
both `get_orders` views omit it. -/
theorem c6_zero_amount_orders_vanish :
    (∀ s : OMState, SysReach s → RestingPos s) ∧
    (∀ (b : OrderBook) (side : Side) (amount : Int), WFBook b →
      ∀ f ∈ ((TradeExecutor.execute b side amount).1).order_fills,
        ∀ o ∈ b.get_orders side, f.order_id = o.order_id →
          f.filled_amount = o.amount →
          ((TradeExecutor.execute b side amount).2).get_order f.order_id = none ∧
          (∀ sd : Side, ∀ o' ∈ ((TradeExecutor.execute b side amount).2).get_orders sd,
            o'.order_id ≠ f.order_id)) := by
  constructor
  · exact fun s h => sysReach_restingPos s h
  · intro b side amount hwf f hf o ho hfid hfamt
    have hval : ∀ o' ∈ b.get_orders side,
        dlookup b.orderIndex o'.order_id = some o' := by
      obtain ⟨w1, w2, w3, w4, w5⟩ := hwf
      intro o' ho'
      cases side with
      | BUY => exact (w3 o' (by simpa [OrderBook.get_orders] using ho')).2
      | SELL => exact (w4 o' (by simpa [OrderBook.get_orders] using ho')).2
    have hnodup : ((b.get_orders side).map Order.order_id).Nodup := by
      have w1 := hwf.1
      rw [List.map_append] at w1
      rcases List.nodup_append.mp w1 with ⟨hbn, hsn, _⟩
      cases side with
      | BUY => simpa [OrderBook.get_orders] using hbn
      | SELL => simpa [OrderBook.get_orders] using hsn
    obtain ⟨_, hfills⟩ := execLoop_exhaust (b.get_orders side) b [] amount hwf hval hnodup
    have hnib : NotInBook (executeLoop b [] (b.get_orders side) amount).book f.order_id :=
      hfills f (by simpa [TradeExecutor.execute] using hf) o ho hfid hfamt
    obtain ⟨hn1, hn2, hn3⟩ := hnib
    refine ⟨?_, ?_⟩
    · simpa [TradeExecutor.execute] using hn1
    · intro sd o' ho'
      cases sd with
      | BUY =>
        exact hn2 o' (by simpa [TradeExecutor.execute, OrderBook.get_orders] using ho')
      | SELL =>
        exact hn3 o' (by simpa [TradeExecutor.execute, OrderBook.get_orders] using ho')

/-- Witness for C6: a reachable one-order state is positive, and a trade
that exhausts the single resting order removes it from the book. -/
theorem c6_witness :
    RestingPos ((OMState.empty.add_order 1 "JPM" Side.BUY 20 20).2) ∧
    (((TradeExecutor.execute
        ⟨"JPM", [⟨1, "JPM", Side.BUY, 20, 20⟩], [],
          [(1, ⟨1, "JPM", Side.BUY, 20, 20⟩)]⟩ Side.BUY 20).2).get_order 1 = none ∧
      (∀ sd : Side, ∀ o' ∈ ((TradeExecutor.execute
        ⟨"JPM", [⟨1, "JPM", Side.BUY, 20, 20⟩], [],
          [(1, ⟨1, "JPM", Side.BUY, 20, 20⟩)]⟩ Side.BUY 20).2).get_orders sd,
        o'.order_id ≠ (1 : Int))) :=
  ⟨c6_zero_amount_orders_vanish.1 _
      (SysReach.add OMState.empty 1 "JPM" Side.BUY 20 20 SysReach.init
        (by decide) (by decide)),
   c6_zero_amount_orders_vanish.2
      ⟨"JPM", [⟨1, "JPM", Side.BUY, 20, 20⟩], [],
        [(1, ⟨1, "JPM", Side.BUY, 20, 20⟩)]⟩ Side.BUY 20 (by decide)
      ⟨1, 20, 20⟩ (by decide) ⟨1, "JPM", Side.BUY, 20, 20⟩ (by decide)
      (by decide) (by decide)⟩

end OMS
